import Mathlib

/-!
Verification development for the fabricated-reference checker
(`fabrefchecker-v1.0.py`).  Strings are modelled as `List Char`; each
Python helper function is translated into an executable Lean definition
keeping the source's name, and the spec's testable properties are proved
about those definitions.
-/

namespace FabRef

/-! ## Character classes (ASCII fragment of Python's `\s`, `\d`, `\W`) -/

/-- Python whitespace (`\s`, ASCII fragment): space, tab, newline,
carriage return, vertical tab, form feed. -/
def isWS (c : Char) : Bool :=
  c = ' ' || c = '\t' || c = '\n' || c = '\r' || c = '\x0b' || c = '\x0c'

/-- ASCII decimal digit, Python's `\d`. -/
def isDigitC (c : Char) : Bool := '0' ≤ c && c ≤ '9'

/-- ASCII lowercase letter. -/
def isLowerC (c : Char) : Bool := 'a' ≤ c && c ≤ 'z'

/-- ASCII uppercase letter. -/
def isUpperC (c : Char) : Bool := 'A' ≤ c && c ≤ 'Z'

/-- ASCII letter or digit. -/
def isAlnumC (c : Char) : Bool := isLowerC c || isUpperC c || isDigitC c

/-- Python word character (`\w`, ASCII fragment): letter, digit or underscore.
The complement `\W` is what `re.sub(r'\W+', '', s)` removes. -/
def isWordChar (c : Char) : Bool := isAlnumC c || c = '_'

/-! ## String trimming (Python `str.strip` / `str.rstrip` on `List Char`) -/

/-- Python `str.lstrip()`: drop leading whitespace. -/
def lstrip (l : List Char) : List Char := l.dropWhile isWS

/-- Python `str.rstrip()`: drop trailing whitespace. -/
def rstrip (l : List Char) : List Char := (l.reverse.dropWhile isWS).reverse

/-- Python `str.strip()`: drop whitespace from both ends. -/
def strip (l : List Char) : List Char := lstrip (rstrip l)

/-! ## The matcher's normalizer: `re.sub(r'\W+', '', s).lower()`

`re.sub` replaces every maximal run of non-word characters by the empty
string; the two mutually recursive functions walk the string with a flag
distinguishing "inside a run being replaced" from "outside". -/

mutual

/-- Scanner for `re.sub(r'\W+', '', s)`, outside a non-word run. -/
def subNonWord : List Char → List Char
  | [] => []
  | c :: cs => if isWordChar c then c :: subNonWord cs else subNonWordRun cs

/-- Scanner for `re.sub(r'\W+', '', s)`, inside a non-word run that is
being replaced by the empty string. -/
def subNonWordRun : List Char → List Char
  | [] => []
  | c :: cs => if isWordChar c then c :: subNonWord cs else subNonWordRun cs

end

/-- The normalizer applied by `is_title_in_reference` to both strings:
`re.sub(r'\W+', '', s).lower()`. -/
def normalizeW (s : List Char) : List Char := (subNonWord s).map Char.toLower

/-! ## Levenshtein distance as the source computes it (row DP)

`levenshtein(s1, s2)` in the source: swap so that `s1` is the longer
string, return `len(s1)` if `s2` is empty, otherwise run the classical
two-row dynamic program and return the last entry of the final row. -/

/-- Inner loop of the DP: given the remaining characters of `s2` paired
with the tail of the previous row (`p0 :: p1 :: …` where `p0` is the entry
at the current column), and `cur` the last value written into the current
row, produce the rest of the current row.  Mirrors
`for j, c2 in enumerate(s2): …` in the source. -/
def buildRow (c1 : Char) : List Char → List Nat → Nat → List Nat
  | [], _, _ => []
  | _ :: _, [], _ => []
  | _ :: _, [_], _ => []
  | c2 :: s2t, p0 :: p1 :: pt, cur =>
    let v := min (p1 + 1) (min (cur + 1) (p0 + (if c1 = c2 then 0 else 1)))
    v :: buildRow c1 s2t (p1 :: pt) v

/-- Outer loop of the DP: fold the characters of `s1` over the row,
starting from `previous_row = range(len(s2)+1)`; `i` is the 0-based index
of the current character of `s1`. -/
def dpRows (s2 : List Char) : List Char → List Nat → Nat → List Nat
  | [], prev, _ => prev
  | c1 :: s1t, prev, i => dpRows s2 s1t ((i + 1) :: buildRow c1 s2 prev (i + 1)) (i + 1)

/-- The DP part of the source's `levenshtein` (after the swap): the
`len(s2) == 0` early return, then the row iteration, returning
`previous_row[-1]`. -/
def levCore (s1 s2 : List Char) : Nat :=
  if s2.length = 0 then s1.length
  else (dpRows s2 s1 (List.range (s2.length + 1)) 0).getLastD 0

/-- `levenshtein` from the source: `if len(s1) < len(s2): return
levenshtein(s2, s1)` then the DP. -/
def levenshtein (s1 s2 : List Char) : Nat :=
  if s1.length < s2.length then levCore s2 s1 else levCore s1 s2

/-! ## Mathematical Levenshtein distance (specification side)

The textbook recurrence, peeling first characters, and an inductive
notion of edit script (alignment) whose cost counts single-character
insertions, deletions and substitutions. -/

/-- Textbook Levenshtein recurrence (unit costs). -/
def lev : List Char → List Char → Nat
  | [], ys => ys.length
  | x :: xs, [] => (x :: xs).length
  | x :: xs, y :: ys =>
    min (lev xs (y :: ys) + 1)
      (min (lev (x :: xs) ys + 1) (lev xs ys + (if x = y then 0 else 1)))
termination_by xs ys => xs.length + ys.length

/-- `Edits a b n`: the string `a` can be transformed into the string `b`
by an alignment using exactly `n` single-character operations — each
operation an insertion, a deletion, or a substitution of one character
(cost 1 each); matching characters are copied at no cost. -/
inductive Edits : List Char → List Char → Nat → Prop
  | nil : Edits [] [] 0
  | copy {xs ys n} (c : Char) : Edits xs ys n → Edits (c :: xs) (c :: ys) n
  | subst {xs ys n} (x y : Char) : x ≠ y → Edits xs ys n → Edits (x :: xs) (y :: ys) (n + 1)
  | ins {xs ys n} (y : Char) : Edits xs ys n → Edits xs (y :: ys) (n + 1)
  | del {xs ys n} (x : Char) : Edits xs ys n → Edits (x :: xs) ys (n + 1)

/-! ## Substring containment (Python `ct in rt`) -/

/-- Python substring test `ct in rt`: some window of `rt` of the length
of `ct` equals `ct` (true for empty `ct`). -/
def strContains (rt ct : List Char) : Bool :=
  (List.range (rt.length - ct.length + 1)).any
    (fun i => decide ((rt.drop i).take ct.length = ct))

/-! ## `is_title_in_reference` from the source -/

/-- `is_title_in_reference(crossref_title, ref_text, tolerance)`:
normalize both strings, exact-substring fast path, then the
sliding-window (resp. whole-string) edit-distance fallback. -/
def is_title_in_reference (crossref_title ref_text : List Char) (tolerance : Nat) :
    Bool × Bool :=
  let ct := normalizeW crossref_title
  let rt := normalizeW ref_text
  if strContains rt ct then (true, false)
  else if ct.length ≤ rt.length then
    if (List.range (rt.length - ct.length + 1)).any
        (fun i => levenshtein ct ((rt.drop i).take ct.length) ≤ tolerance) then
      (true, true)
    else (false, false)
  else
    if levenshtein ct rt ≤ tolerance then (true, true) else (false, false)

/-! ## `extract_doi` from the source

Regex `(10\.\d{4,9}/[-._;()/:A-Z0-9]+)` with `re.I`, first match, then
`rstrip(' .;,')` on the captured token.  A match at a position requires
the literal `10.`, then a maximal digit run of length 4–9 followed
immediately by `/` (with a greedy `\d{4,9}` and no `/` among digits, no
other split of the run can satisfy the regex), then a maximal non-empty
run of suffix-class characters. -/

/-- Character class `[-._;()/:A-Z0-9]` under `re.IGNORECASE` (so lowercase
letters are included). -/
def isDoiSufChar (c : Char) : Bool :=
  c = '-' || c = '.' || c = '_' || c = ';' || c = '(' || c = ')' || c = '/' || c = ':' ||
    isDigitC c || isUpperC c || isLowerC c

/-- Attempt the DOI regex anchored at the current position; returns the
captured token. -/
def doiMatchAt : List Char → Option (List Char)
  | '1' :: '0' :: '.' :: rest =>
    let ds := rest.takeWhile isDigitC
    if 4 ≤ ds.length ∧ ds.length ≤ 9 then
      match rest.dropWhile isDigitC with
      | '/' :: rest2 =>
        let suf := rest2.takeWhile isDoiSufChar
        if suf.isEmpty then none
        else some ('1' :: '0' :: '.' :: (ds ++ '/' :: suf))
      | _ => none
    else none
  | _ => none

/-- `re.search`: try the pattern at each position, left to right. -/
def scanDoi : List Char → Option (List Char)
  | [] => none
  | c :: cs =>
    match doiMatchAt (c :: cs) with
    | some t => some t
    | none => scanDoi cs

/-- Python `str.rstrip(' .;,')`. -/
def rstripPunct (l : List Char) : List Char :=
  (l.reverse.dropWhile (fun c => c = ' ' || c = '.' || c = ';' || c = ',')).reverse

/-- `extract_doi(text)`: first regex match, trailing ` .;,` stripped. -/
def extract_doi (text : List Char) : Option (List Char) :=
  (scanDoi text).map rstripPunct

/-! ## `normalize_text` from the source -/

/-- `raw.replace('\r\n', '\n').replace('\r', '\n')`: a `\r` directly
before a `\n` is dropped, any other `\r` becomes `\n`. -/
def fixNl : List Char → List Char
  | [] => []
  | [c] => if c = '\r' then ['\n'] else [c]
  | c1 :: c2 :: cs =>
    if c1 = '\r' then
      if c2 = '\n' then '\n' :: fixNl cs
      else '\n' :: fixNl (c2 :: cs)
    else c1 :: fixNl (c2 :: cs)

/-- Python `text.split('\n')` (always returns at least one piece). -/
def splitNl : List Char → List (List Char)
  | [] => [[]]
  | c :: cs =>
    if c = '\n' then [] :: splitNl cs
    else
      match splitNl cs with
      | [] => [[c]]
      | l :: ls => (c :: l) :: ls

/-- Python `'\n'.join(lines)`. -/
def joinNl : List (List Char) → List Char
  | [] => []
  | [l] => l
  | l :: ls => l ++ '\n' :: joinNl ls

/-- `re.search(r'[A-Za-z0-9][\.\?\!;:]?\s*$', stripped)` on an already
right-stripped line: the line ends in a letter/digit, optionally followed
by one of `. ? ! ; :`. -/
def terminated (l : List Char) : Bool :=
  match l.reverse with
  | [] => false
  | c :: rest =>
    isAlnumC c ||
      ((c = '.' || c = '?' || c = '!' || c = ';' || c = ':') &&
        (match rest with
         | c2 :: _ => isAlnumC c2
         | [] => false))

/-- The line loop of `normalize_text`: accumulate soft-wrapped lines in
`buffer`, flushing on blank lines, on terminated lines and at the end. -/
def normLoop : List Char → List (List Char) → List (List Char)
  | buffer, [] => if buffer.isEmpty then [] else [strip buffer]
  | buffer, line :: rest =>
    let s := rstrip line
    if s.isEmpty then
      (if buffer.isEmpty then [[]] else [strip buffer, []]) ++ normLoop [] rest
    else if terminated s then
      (if buffer.isEmpty then [s] else [strip (buffer ++ ' ' :: s)]) ++ normLoop [] rest
    else
      normLoop (if buffer.isEmpty then s else strip (buffer ++ ' ' :: s)) rest

/-- `normalize_text(raw)` from the source. -/
def normalize_text (raw : List Char) : List Char :=
  joinNl (normLoop [] (splitNl (fixNl raw)))

/-! ## `split_references` from the source -/

/-- `re.fullmatch(r'\[\d+\]', part)`. -/
def bareBracket (p : List Char) : Bool :=
  match p with
  | [] => false
  | c :: rest =>
    c = '[' && !(rest.takeWhile isDigitC).isEmpty &&
      rest.dropWhile isDigitC == [']']

/-- `re.fullmatch(r'\d+\.', part)`. -/
def bareNumDot (p : List Char) : Bool :=
  !(p.takeWhile isDigitC).isEmpty && p.dropWhile isDigitC == ['.']

/-- `re.fullmatch(r'\d+\)', part)`. -/
def bareNumParen (p : List Char) : Bool :=
  !(p.takeWhile isDigitC).isEmpty && p.dropWhile isDigitC == [')']

/-- `re.fullmatch(r'\[\d+\]|\d+\.|\d+\)', part)`: the piece is nothing but
a bare delimiter token. -/
def isBareDelim (p : List Char) : Bool :=
  bareBracket p || bareNumDot p || bareNumParen p

/-- Shared tail of the three numbered delimiters: the mandatory `\s+`
(greedy).  Returns the remaining input and whether the position after the
match is a line start (last consumed character is a newline). -/
def afterWS (cs : List Char) : Option (List Char × Bool) :=
  let ws := cs.takeWhile isWS
  if ws.isEmpty then none
  else some (cs.dropWhile isWS, ws.getLastD ' ' == '\n')

/-- `^\[\d+\]\s+` at the current position. -/
def tryBracket (cs : List Char) : Option (List Char × Bool) :=
  match cs with
  | [] => none
  | c :: rest =>
    if c = '[' then
      if (rest.takeWhile isDigitC).isEmpty then none
      else
        match rest.dropWhile isDigitC with
        | [] => none
        | c2 :: rest2 => if c2 = ']' then afterWS rest2 else none
    else none

/-- `^\d+\.\s+` at the current position. -/
def tryNumDot (cs : List Char) : Option (List Char × Bool) :=
  if (cs.takeWhile isDigitC).isEmpty then none
  else
    match cs.dropWhile isDigitC with
    | [] => none
    | c2 :: rest2 => if c2 = '.' then afterWS rest2 else none

/-- `^\d+\)\s+` at the current position. -/
def tryNumParen (cs : List Char) : Option (List Char × Bool) :=
  if (cs.takeWhile isDigitC).isEmpty then none
  else
    match cs.dropWhile isDigitC with
    | [] => none
    | c2 :: rest2 => if c2 = ')' then afterWS rest2 else none

/-- `\n{2,}` (greedy) at the current position. -/
def tryGap (cs : List Char) : Option (List Char × Bool) :=
  if 2 ≤ (cs.takeWhile (fun c => c == '\n')).length then
    some (cs.dropWhile (fun c => c == '\n'), true)
  else none

/-- One attempt of the splitter alternation
`^(?:\[\d+\]|\d+\.)\s+ | ^(?:\d+\))\s+ | \n{2,}` at the current position,
alternatives in source order; the `^`-anchored ones need a line start. -/
def matchDelim (atStart : Bool) (cs : List Char) : Option (List Char × Bool) :=
  if atStart then
    match tryBracket cs with
    | some r => some r
    | none =>
      match tryNumDot cs with
      | some r => some r
      | none =>
        match tryNumParen cs with
        | some r => some r
        | none => tryGap cs
  else tryGap cs

theorem length_takeWhile_add_dropWhile (p : α → Bool) (l : List α) :
    (l.takeWhile p).length + (l.dropWhile p).length = l.length := by
  rw [← List.length_append, List.takeWhile_append_dropWhile]

theorem length_dropWhile_le (p : α → Bool) (l : List α) :
    (l.dropWhile p).length ≤ l.length := by
  have h := length_takeWhile_add_dropWhile p l
  omega

theorem afterWS_length {cs r : List Char} {b : Bool} (h : afterWS cs = some (r, b)) :
    r.length ≤ cs.length := by
  unfold afterWS at h
  by_cases hw : (cs.takeWhile isWS).isEmpty
  · simp [hw] at h
  · simp only [hw, Bool.false_eq_true, if_false, Option.some.injEq, Prod.mk.injEq] at h
    obtain ⟨h1, _⟩ := h
    subst h1
    exact length_dropWhile_le _ _

theorem matchDelim_length {a : Bool} {cs r : List Char} {b : Bool}
    (h : matchDelim a cs = some (r, b)) : r.length < cs.length := by
  have gap : ∀ {cs' r' : List Char} {b' : Bool}, tryGap cs' = some (r', b') →
      r'.length < cs'.length := by
    intro cs' r' b' hg
    unfold tryGap at hg
    by_cases h2 : 2 ≤ (cs'.takeWhile (fun c => c == '\n')).length
    · simp only [h2, if_true, Option.some.injEq, Prod.mk.injEq] at hg
      obtain ⟨h1, _⟩ := hg
      subst h1
      have := length_takeWhile_add_dropWhile (fun c => c == '\n') cs'
      omega
    · simp [h2] at hg
  have brk : ∀ {cs' r' : List Char} {b' : Bool}, tryBracket cs' = some (r', b') →
      r'.length < cs'.length := by
    intro cs' r' b' hg
    unfold tryBracket at hg
    split at hg
    · simp at hg
    · rename_i c rest
      split at hg
      · split at hg
        · simp at hg
        · split at hg
          · simp at hg
          · rename_i c2 rest2 hd
            split at hg
            · have h1 := afterWS_length hg
              have h2 := length_takeWhile_add_dropWhile isDigitC rest
              rw [hd] at h2
              simp only [List.length_cons] at h2 ⊢
              omega
            · simp at hg
      · simp at hg
  have dot : ∀ {cs' r' : List Char} {b' : Bool}, tryNumDot cs' = some (r', b') →
      r'.length < cs'.length := by
    intro cs' r' b' hg
    unfold tryNumDot at hg
    split at hg
    · simp at hg
    · rename_i he
      split at hg
      · simp at hg
      · rename_i c2 rest2 hd
        split at hg
        · have h1 := afterWS_length hg
          have h2 := length_takeWhile_add_dropWhile isDigitC cs'
          rw [hd] at h2
          have h3 : ¬((cs'.takeWhile isDigitC).length = 0) := by
            simpa [List.isEmpty_iff_length_eq_zero] using he
          simp only [List.length_cons] at h2
          omega
        · simp at hg
  have par : ∀ {cs' r' : List Char} {b' : Bool}, tryNumParen cs' = some (r', b') →
      r'.length < cs'.length := by
    intro cs' r' b' hg
    unfold tryNumParen at hg
    split at hg
    · simp at hg
    · rename_i he
      split at hg
      · simp at hg
      · rename_i c2 rest2 hd
        split at hg
        · have h1 := afterWS_length hg
          have h2 := length_takeWhile_add_dropWhile isDigitC cs'
          rw [hd] at h2
          have h3 : ¬((cs'.takeWhile isDigitC).length = 0) := by
            simpa [List.isEmpty_iff_length_eq_zero] using he
          simp only [List.length_cons] at h2
          omega
        · simp at hg
  unfold matchDelim at h
  by_cases ha : a
  · simp only [ha, if_true] at h
    match h1 : tryBracket cs with
    | some r1 =>
      rw [h1] at h
      cases h
      exact brk h1
    | none =>
      rw [h1] at h
      match h2 : tryNumDot cs with
      | some r2 =>
        rw [h2] at h
        cases h
        exact dot h2
      | none =>
        rw [h2] at h
        match h3 : tryNumParen cs with
        | some r3 =>
          rw [h3] at h
          cases h
          exact par h3
        | none =>
          rw [h3] at h
          exact gap h
  · simp only [ha, if_false] at h
    exact gap h

/-- The scanning loop of `re.split` specialised to the splitter pattern:
walk the text, maintaining the piece accumulated since the last delimiter
(in reverse) and whether the current position is a line start; emit a
piece at every delimiter match. -/
def splitLoop (atStart : Bool) (buf : List Char) (cs : List Char) : List (List Char) :=
  match cs with
  | [] => [buf.reverse]
  | c :: rest =>
    match h : matchDelim atStart (c :: rest) with
    | some (rest', ns) => buf.reverse :: splitLoop ns [] rest'
    | none => splitLoop (c == '\n') (c :: buf) rest
termination_by cs.length
decreasing_by
  · exact matchDelim_length h
  · simp

/-- Does a line match the author–year lookahead
`[A-Z][a-z]+, .*?\(\d{4}\)`: does the tail contain `(` + 4 digits + `)`.
`yearAt` checks the 5 characters after a `(`. -/
def yearAt : List Char → Bool
  | d1 :: d2 :: d3 :: d4 :: ')' :: _ =>
    isDigitC d1 && isDigitC d2 && isDigitC d3 && isDigitC d4
  | _ => false

/-- `.*?\(\d{4}\)` within one line: some `(` is followed by 4 digits and `)`. -/
def hasYearParen : List Char → Bool
  | [] => false
  | c :: cs => (c == '(' && yearAt cs) || hasYearParen cs

/-- The lookahead `[A-Z][a-z]+, .*?\(\d{4}\)` anchored at a line start:
uppercase letter, maximal non-empty lowercase run, then `, `, then a
parenthesised four-digit year later on the line. -/
def ayLine : List Char → Bool
  | [] => false
  | c :: rest =>
    isUpperC c && !(rest.takeWhile isLowerC).isEmpty &&
      (match rest.dropWhile isLowerC with
       | ',' :: ' ' :: rest2 => hasYearParen rest2
       | _ => false)

/-- `author_year_pattern.sub('\n', text)`: insert a newline before every
line start whose line matches the author–year lookahead. -/
def aySubGo : Bool → List Char → List Char
  | _, [] => []
  | atStart, c :: cs =>
    (if atStart && ayLine ((c :: cs).takeWhile (fun x => x != '\n')) then ['\n'] else []) ++
      c :: aySubGo (c == '\n') cs

/-- The author–year pre-pass of `split_references`. -/
def author_year_sub (text : List Char) : List Char := aySubGo true text

/-- `split_references(text)` from the source: author–year pre-pass, split
on the delimiter alternation, strip each piece, drop empty pieces and
bare delimiter tokens. -/
def split_references (text : List Char) : List (List Char) :=
  ((splitLoop true [] (author_year_sub text)).map strip).filter
    (fun p => !(p.isEmpty || isBareDelim p))

/-! ## The processing loop and summary report -/

/-- A Crossref record as the loop uses it: just the canonical title
(`entry.get("title", [""])[0]`, possibly empty). -/
structure CrossrefRecord where
  title : List Char
deriving DecidableEq

/-- Per-entry outcome, as the spec's data model names them. -/
inductive Classification where
  | NoIdentifier
  | NotFoundInMetadataSource
  | TitleMismatch
  | Verified
deriving DecidableEq

/-- The decision structure of one iteration of the processing loop:
DOI extraction, Crossref lookup, fuzzy title match. -/
def classify (lookup : List Char → Option CrossrefRecord) (tol : Nat)
    (ref : List Char) : Classification :=
  match extract_doi ref with
  | none => Classification.NoIdentifier
  | some doi =>
    match lookup doi with
    | none => Classification.NotFoundInMetadataSource
    | some entry =>
      if (is_title_in_reference entry.title ref tol).1 then Classification.Verified
      else Classification.TitleMismatch

/-- The loop's mutable counters and flagged lists. -/
structure RunState where
  with_doi : Nat
  no_doi : Nat
  correct : Nat
  incorrect : Nat
  no_doi_list : List (List Char)
  incorrect_list : List (List Char)
deriving DecidableEq

/-- One iteration of `for idx, ref in enumerate(references, start=1)`. -/
def processRef (lookup : List Char → Option CrossrefRecord) (tol : Nat)
    (st : RunState) (ref : List Char) : RunState :=
  match extract_doi ref with
  | none =>
    { st with no_doi := st.no_doi + 1, no_doi_list := st.no_doi_list ++ [ref] }
  | some doi =>
    let st1 := { st with with_doi := st.with_doi + 1 }
    match lookup doi with
    | none =>
      { st1 with incorrect := st1.incorrect + 1,
                 incorrect_list := st1.incorrect_list ++ [ref] }
    | some entry =>
      if (is_title_in_reference entry.title ref tol).1 then
        { st1 with correct := st1.correct + 1 }
      else
        { st1 with incorrect := st1.incorrect + 1,
                   incorrect_list := st1.incorrect_list ++ [ref] }

/-- `with_doi = no_doi = correct = incorrect = 0` and empty lists. -/
def initState : RunState := ⟨0, 0, 0, 0, [], []⟩

/-- The whole processing loop over the references. -/
def runRefs (lookup : List Char → Option CrossrefRecord) (tol : Nat)
    (refs : List (List Char)) : RunState :=
  refs.foldl (processRef lookup tol) initState

/-- `total_verified_references = with_doi if with_doi > 0 else 1`
(the summary's denominator, "avoid division by zero"). -/
def total_verified_references (st : RunState) : Nat :=
  if 0 < st.with_doi then st.with_doi else 1

/-- `correct_percentage = (correct_count / total_verified_references) * 100`. -/
def correct_percentage (st : RunState) : ℚ :=
  ((st.correct : ℚ) / (total_verified_references st : ℚ)) * 100

/-- `incorrect_percentage = (incorrect_count / total_verified_references) * 100`. -/
def incorrect_percentage (st : RunState) : ℚ :=
  ((st.incorrect : ℚ) / (total_verified_references st : ℚ)) * 100

/-- The normalizer as the spec's words describe it: keep only letters and
digits (dropping underscores as well), lowercase the remainder. -/
def specNormalizeAlnum (s : List Char) : List Char :=
  (s.filter isAlnumC).map Char.toLower

/-- The counter/list update performed by the loop body for each
classification outcome. -/
def applyClass : Classification → RunState → List Char → RunState
  | Classification.NoIdentifier, st, ref =>
    { st with no_doi := st.no_doi + 1, no_doi_list := st.no_doi_list ++ [ref] }
  | Classification.NotFoundInMetadataSource, st, ref =>
    { st with with_doi := st.with_doi + 1, incorrect := st.incorrect + 1,
              incorrect_list := st.incorrect_list ++ [ref] }
  | Classification.TitleMismatch, st, ref =>
    { st with with_doi := st.with_doi + 1, incorrect := st.incorrect + 1,
              incorrect_list := st.incorrect_list ++ [ref] }
  | Classification.Verified, st, ref =>
    { st with with_doi := st.with_doi + 1, correct := st.correct + 1 }

/-- The row of prefix distances tracked by the DP: entry `j` is the
distance between `a` and `b ++ (first j characters of the remaining
suffix)`. -/
def rowFrom (a : List Char) : List Char → List Char → List Nat
  | [], b => [lev a b]
  | c :: rest, b => lev a b :: rowFrom a rest (b ++ [c])

/-- The character set `rstrip(' .;,')` removes from the end of a captured
DOI token. -/
def isStripPunct (c : Char) : Bool := c = ' ' || c = '.' || c = ';' || c = ','

/-- The DOI lexical pattern exactly as claim C4 states it: the literal
`10.`, then 4 to 9 digits, then `/`, then a NON-EMPTY suffix of
characters from the DOI suffix class. -/
def claimedDoiShape (d : List Char) : Prop :=
  ∃ ds suf, d = '1' :: '0' :: '.' :: (ds ++ '/' :: suf) ∧
    4 ≤ ds.length ∧ ds.length ≤ 9 ∧ (∀ c ∈ ds, isDigitC c = true) ∧
    (∀ c ∈ suf, isDoiSufChar c = true) ∧ suf ≠ []

/-- Shape invariant of the line list produced by `normalize_text`: every
line is blank, or a right-stripped terminated line, or a fully stripped
unterminated line that is the last line or is followed by a blank line. -/
inductive GoodLines : List (List Char) → Prop
  | nil : GoodLines []
  | blank {L : List (List Char)} : GoodLines L → GoodLines ([] :: L)
  | term {s : List Char} {L : List (List Char)} :
      s ≠ [] → rstrip s = s → terminated s = true → GoodLines L →
      GoodLines (s :: L)
  | unterm_end {s : List Char} :
      s ≠ [] → strip s = s → terminated s = false → GoodLines [s]
  | unterm_blank {s : List Char} {L : List (List Char)} :
      s ≠ [] → strip s = s → terminated s = false → GoodLines ([] :: L) →
      GoodLines (s :: [] :: L)

/-- Lowercase ASCII letter or space: the characters we allow inside a
reference entry when stating the segmentation-coverage property. -/
def isLowerOrSpace (c : Char) : Bool := isLowerC c || c = ' '

/-- A "plain" reference entry for the segmentation-coverage property:
non-empty, made of lowercase letters and spaces, starting and ending with
a letter (so it is its own trim, contains no newline, and is not a bare
delimiter token). -/
def plainEntry (e : List Char) : Bool :=
  !e.isEmpty && e.all isLowerOrSpace && isLowerC (e.headD ' ') &&
    isLowerC (e.getLastD ' ')

/-- A delimiter numeral: a non-empty string of digits. -/
def numeralOk (d : List Char) : Bool := !d.isEmpty && d.all isDigitC

/-- One entry under the line-start bracketed-number convention: `[d] e`. -/
def itemBracket (p : List Char × List Char) : List Char :=
  '[' :: p.1 ++ ']' :: ' ' :: p.2

/-- One entry under the line-start number-period convention: `d. e`. -/
def itemNumDot (p : List Char × List Char) : List Char :=
  p.1 ++ '.' :: ' ' :: p.2

/-- One entry under the line-start number-parenthesis convention: `d) e`. -/
def itemNumParen (p : List Char × List Char) : List Char :=
  p.1 ++ ')' :: ' ' :: p.2

/-- Join entries with blank-line gaps (`\n\n`). -/
def joinGap : List (List Char) → List Char
  | [] => []
  | [e] => e
  | e :: es => e ++ '\n' :: '\n' :: joinGap es

/-- The pieces `re.split` produces for a consistently delimited list,
starting from the first entry: every piece but the last carries the
newline that preceded the next delimiter. -/
def piecesOf (e : List Char) : List (List Char × List Char) → List (List Char)
  | [] => [e]
  | p :: ps => (e ++ ['\n']) :: piecesOf p.2 ps

/-! ## Theorems -/

theorem subNonWord_eq_filter :
    ∀ s : List Char, subNonWord s = s.filter isWordChar ∧
      subNonWordRun s = s.filter isWordChar := by
  intro s
  induction s with
  | nil => exact ⟨rfl, rfl⟩
  | cons c cs ih =>
    by_cases h : isWordChar c
    · simp [subNonWord, subNonWordRun, h, List.filter_cons, ih.1]
    · simp [subNonWord, subNonWordRun, h, List.filter_cons, ih.2]

theorem normalizeW_eq_filter (s : List Char) :
    normalizeW s = (s.filter isWordChar).map Char.toLower := by
  unfold normalizeW
  rw [(subNonWord_eq_filter s).1]

/-- Claim C3, as stated: the matcher's normalization keeps exactly the
letters and digits (removing underscores).  False: `re.sub(r'\W+', '', s)`
removes non-word characters, and `_` is a word character, so underscores
are kept: on the input `"_"` the code yields `"_"`, not `""`. -/
theorem C3_counterexample :
    ¬ (normalizeW ['_'] = specNormalizeAlnum ['_']) := by
  decide

/-- Claim C3, amended: the normalization applied by the fuzzy title
matcher yields the lowercased sequence of the input's letters, digits and
underscores — every character that is not a letter, digit or underscore
is removed, and underscores are retained. -/
theorem C3_amended_normalizeW (s : List Char) :
    normalizeW s = (s.filter isWordChar).map Char.toLower :=
  normalizeW_eq_filter s

theorem strContains_nil (rt : List Char) : strContains rt [] = true := by
  unfold strContains
  rw [List.any_eq_true]
  refine ⟨0, ?_, ?_⟩
  · rw [List.mem_range]
    omega
  · simp

/-- Claim C8: matching is monotone in the tolerance.  If the matcher
reports `matched = true` at tolerance `t1 ≤ t2` then it also reports
`matched = true` at tolerance `t2`. -/
theorem C8_tolerance_monotone (title ref : List Char) (t1 t2 : Nat)
    (hle : t1 ≤ t2) (h : (is_title_in_reference title ref t1).1 = true) :
    (is_title_in_reference title ref t2).1 = true := by
  unfold is_title_in_reference at h ⊢
  by_cases hc : strContains (normalizeW ref) (normalizeW title)
  · simp [hc]
  · simp only [hc, Bool.false_eq_true, if_false] at h ⊢
    by_cases hl : (normalizeW title).length ≤ (normalizeW ref).length
    · simp only [hl, if_true] at h ⊢
      by_cases ha : (List.range ((normalizeW ref).length - (normalizeW title).length + 1)).any
          (fun i => levenshtein (normalizeW title)
            (((normalizeW ref).drop i).take (normalizeW title).length) ≤ t1)
      · rw [List.any_eq_true] at ha
        obtain ⟨i, hi, hlev⟩ := ha
        have : (List.range ((normalizeW ref).length - (normalizeW title).length + 1)).any
            (fun i => levenshtein (normalizeW title)
              (((normalizeW ref).drop i).take (normalizeW title).length) ≤ t2) = true := by
          rw [List.any_eq_true]
          exact ⟨i, hi, by simp only [decide_eq_true_eq] at hlev ⊢; omega⟩
        simp [this]
      · simp [ha] at h
    · simp only [hl, if_false] at h ⊢
      by_cases hlev : levenshtein (normalizeW title) (normalizeW ref) ≤ t1
      · have : levenshtein (normalizeW title) (normalizeW ref) ≤ t2 := le_trans hlev hle
        simp [this]
      · simp [hlev] at h

set_option maxRecDepth 100000 in
/-- Witness for C8 at a concrete input. -/
theorem C8_witness :
    (1 : Nat) ≤ 2 ∧
      (is_title_in_reference "A Study of Widgets".toList
        "Smith J. A Study of Widgetz. Journal, 2020.".toList 2).1 = true :=
  ⟨by omega,
    C8_tolerance_monotone _ _ 1 2 (by omega) (by decide)⟩

/-- Claim C10: a canonical title that normalizes to the empty string makes
the matcher return `(true, false)` (the empty string is a substring of
everything), and consequently an entry whose record carries such a title
is classified `Verified`. -/
theorem C10_empty_title (title ref : List Char) (tol : Nat)
    (lookup : List Char → Option CrossrefRecord) (doi : List Char)
    (entry : CrossrefRecord)
    (h : normalizeW title = []) :
    is_title_in_reference title ref tol = (true, false) ∧
      (extract_doi ref = some doi → lookup doi = some entry →
        normalizeW entry.title = [] →
        classify lookup tol ref = Classification.Verified) := by
  have key : ∀ t : List Char, normalizeW t = [] →
      is_title_in_reference t ref tol = (true, false) := by
    intro t ht
    unfold is_title_in_reference
    rw [ht]
    simp [strContains_nil]
  constructor
  · exact key title h
  · intro hdoi hlook htitle
    unfold classify
    rw [hdoi]
    dsimp only
    rw [hlook]
    dsimp only
    rw [key entry.title htitle]
    rfl

/-- Witness for C10 at a concrete input. -/
theorem C10_witness :
    normalizeW "!?".toList = [] ∧
      classify (fun _ => some ⟨"!?".toList⟩) 0 "x 10.1234/abcd y".toList =
        Classification.Verified := by
  refine ⟨by decide, ?_⟩
  exact (C10_empty_title "!?".toList "x 10.1234/abcd y".toList 0
      (fun _ => some ⟨"!?".toList⟩) "10.1234/abcd".toList ⟨"!?".toList⟩
      (by decide)).2 (by decide) rfl (by decide)

theorem processRef_eq_applyClass (lookup : List Char → Option CrossrefRecord)
    (tol : Nat) (st : RunState) (ref : List Char) :
    processRef lookup tol st ref = applyClass (classify lookup tol ref) st ref := by
  unfold processRef classify
  cases h : extract_doi ref with
  | none => rfl
  | some doi =>
    dsimp only
    cases h2 : lookup doi with
    | none => rfl
    | some entry =>
      dsimp only
      by_cases hm : (is_title_in_reference entry.title ref tol).1
      · simp only [hm, if_true]
        rfl
      · simp only [hm, Bool.false_eq_true, if_false]
        rfl

/-- Claim C1: the loop classifies each entry deterministically from DOI
extraction, lookup outcome and title match: no DOI means `NoIdentifier`
with the lookup collaborator never consulted (the outcome does not depend
on it), a failed lookup means `NotFoundInMetadataSource`, and a returned
record yields `Verified` exactly when the matcher reports `matched=true`
and `TitleMismatch` otherwise; the loop body updates the counters and
flagged lists according to that classification. -/
theorem C1_orchestrator (lookup lookup2 : List Char → Option CrossrefRecord)
    (tol : Nat) (ref : List Char) (st : RunState) :
    (extract_doi ref = none →
      classify lookup tol ref = Classification.NoIdentifier ∧
        classify lookup tol ref = classify lookup2 tol ref) ∧
    (∀ doi, extract_doi ref = some doi → lookup doi = none →
      classify lookup tol ref = Classification.NotFoundInMetadataSource) ∧
    (∀ doi entry, extract_doi ref = some doi → lookup doi = some entry →
      classify lookup tol ref =
        (if (is_title_in_reference entry.title ref tol).1 then
          Classification.Verified
        else Classification.TitleMismatch)) ∧
    processRef lookup tol st ref = applyClass (classify lookup tol ref) st ref := by
  refine ⟨?_, ?_, ?_, processRef_eq_applyClass lookup tol st ref⟩
  · intro h
    unfold classify
    rw [h]
    exact ⟨rfl, rfl⟩
  · intro doi h h2
    unfold classify
    rw [h]
    dsimp only
    rw [h2]
  · intro doi entry h h2
    unfold classify
    rw [h]
    dsimp only
    rw [h2]

/-- Witness for C1 at concrete inputs. -/
theorem C1_witness :
    extract_doi "no id here".toList = none ∧
      classify (fun _ => some ⟨"t".toList⟩) 0 "no id here".toList =
        Classification.NoIdentifier :=
  ⟨by decide,
    ((C1_orchestrator (fun _ => some ⟨"t".toList⟩) (fun _ => none) 0
      "no id here".toList ⟨0, 0, 0, 0, [], []⟩).1 (by decide)).1⟩

/-! ### The DP in `levenshtein` computes the textbook Levenshtein distance -/

theorem lev_nil_left (ys : List Char) : lev [] ys = ys.length := by
  simp [lev]

theorem lev_nil_right (xs : List Char) : lev xs [] = xs.length := by
  cases xs with
  | nil => simp [lev]
  | cons x xt => simp [lev]

theorem lev_cons_cons (x y : Char) (xs ys : List Char) :
    lev (x :: xs) (y :: ys) =
      min (lev xs (y :: ys) + 1)
        (min (lev (x :: xs) ys + 1) (lev xs ys + (if x = y then 0 else 1))) := by
  simp [lev]

theorem lev_le_ins (xs ys : List Char) (y : Char) :
    lev xs (y :: ys) ≤ lev xs ys + 1 := by
  cases xs with
  | nil => simp [lev_nil_left]
  | cons x xt =>
    rw [lev_cons_cons]
    exact le_trans (min_le_right _ _) (min_le_left _ _)

theorem lev_le_del (xs ys : List Char) (x : Char) :
    lev (x :: xs) ys ≤ lev xs ys + 1 := by
  cases ys with
  | nil => simp [lev_nil_right]
  | cons y yt =>
    rw [lev_cons_cons]
    exact min_le_left _ _

theorem lev_le_sub (x y : Char) (xs ys : List Char) :
    lev (x :: xs) (y :: ys) ≤ lev xs ys + (if x = y then 0 else 1) := by
  rw [lev_cons_cons]
  exact le_trans (min_le_right _ _) (min_le_right _ _)

theorem lev_le_of_Edits {xs ys : List Char} {n : Nat} (h : Edits xs ys n) :
    lev xs ys ≤ n := by
  induction h with
  | nil => simp [lev]
  | copy c _ ih =>
    exact le_trans (lev_le_sub c c _ _) (by simpa using ih)
  | subst x y hne _ ih =>
    refine le_trans (lev_le_sub x y _ _) ?_
    rw [if_neg hne]
    omega
  | ins y _ ih =>
    exact le_trans (lev_le_ins _ _ y) (by omega)
  | del x _ ih =>
    exact le_trans (lev_le_del _ _ x) (by omega)

theorem Edits_nil_left : ∀ ys : List Char, Edits [] ys ys.length := by
  intro ys
  induction ys with
  | nil => exact Edits.nil
  | cons y yt ih => exact Edits.ins y ih

theorem Edits_nil_right : ∀ xs : List Char, Edits xs [] xs.length := by
  intro xs
  induction xs with
  | nil => exact Edits.nil
  | cons x xt ih => exact Edits.del x ih

theorem Edits_lev : ∀ xs ys : List Char, Edits xs ys (lev xs ys) := by
  suffices h : ∀ (n : Nat) (xs ys : List Char), xs.length + ys.length ≤ n →
      Edits xs ys (lev xs ys) by
    intro xs ys
    exact h (xs.length + ys.length) xs ys le_rfl
  intro n
  induction n with
  | zero =>
    intro xs ys h
    match xs, ys with
    | [], [] => simpa [lev_nil_left] using Edits.nil
    | x :: _, _ => simp at h
    | [], y :: _ => simp at h
  | succ n ih =>
    intro xs ys h
    match xs, ys with
    | [], ys =>
      rw [lev_nil_left]
      exact Edits_nil_left ys
    | x :: xt, [] =>
      rw [lev_nil_right]
      exact Edits_nil_right _
    | x :: xt, y :: yt =>
      rw [lev_cons_cons]
      have hA : Edits xt (y :: yt) (lev xt (y :: yt)) := by
        refine ih xt (y :: yt) ?_
        simp only [List.length_cons] at h ⊢
        omega
      have hB : Edits (x :: xt) yt (lev (x :: xt) yt) := by
        refine ih (x :: xt) yt ?_
        simp only [List.length_cons] at h ⊢
        omega
      have hC : Edits xt yt (lev xt yt) := by
        refine ih xt yt ?_
        simp only [List.length_cons] at h ⊢
        omega
      rcases min_cases (lev xt (y :: yt) + 1)
          (min (lev (x :: xt) yt + 1) (lev xt yt + (if x = y then 0 else 1))) with
        ⟨heq, _⟩ | ⟨heq, _⟩
      · rw [heq]
        exact Edits.del x hA
      · rw [heq]
        rcases min_cases (lev (x :: xt) yt + 1)
            (lev xt yt + (if x = y then 0 else 1)) with ⟨heq2, _⟩ | ⟨heq2, _⟩
        · rw [heq2]
          exact Edits.ins y hB
        · rw [heq2]
          by_cases hxy : x = y
          · subst hxy
            simp only [if_pos rfl, Nat.add_zero]
            exact Edits.copy x hC
          · rw [if_neg hxy]
            exact Edits.subst x y hxy hC

theorem Edits_symm {xs ys : List Char} {n : Nat} (h : Edits xs ys n) :
    Edits ys xs n := by
  induction h with
  | nil => exact Edits.nil
  | copy c _ ih => exact Edits.copy c ih
  | subst x y hne _ ih => exact Edits.subst y x (Ne.symm hne) ih
  | ins y _ ih => exact Edits.del y ih
  | del x _ ih => exact Edits.ins x ih

theorem lev_symm (xs ys : List Char) : lev xs ys = lev ys xs :=
  le_antisymm (lev_le_of_Edits (Edits_symm (Edits_lev ys xs)))
    (lev_le_of_Edits (Edits_symm (Edits_lev xs ys)))

theorem Edits_snoc_copy {xs ys : List Char} {n : Nat} (c : Char)
    (h : Edits xs ys n) : Edits (xs ++ [c]) (ys ++ [c]) n := by
  induction h with
  | nil => exact Edits.copy c Edits.nil
  | copy d _ ih => exact Edits.copy d ih
  | subst x y hne _ ih => exact Edits.subst x y hne ih
  | ins y _ ih => exact Edits.ins y ih
  | del x _ ih => exact Edits.del x ih

theorem Edits_snoc_subst {xs ys : List Char} {n : Nat} (x y : Char)
    (hne : x ≠ y) (h : Edits xs ys n) : Edits (xs ++ [x]) (ys ++ [y]) (n + 1) := by
  induction h with
  | nil => exact Edits.subst x y hne Edits.nil
  | copy d _ ih => exact Edits.copy d ih
  | subst a b hab _ ih => exact Edits.subst a b hab ih
  | ins b _ ih => exact Edits.ins b ih
  | del a _ ih => exact Edits.del a ih

theorem Edits_snoc_ins {xs ys : List Char} {n : Nat} (y : Char)
    (h : Edits xs ys n) : Edits xs (ys ++ [y]) (n + 1) := by
  induction h with
  | nil => exact Edits.ins y Edits.nil
  | copy d _ ih => exact Edits.copy d ih
  | subst a b hab _ ih => exact Edits.subst a b hab ih
  | ins b _ ih => exact Edits.ins b ih
  | del a _ ih => exact Edits.del a ih

theorem Edits_snoc_del {xs ys : List Char} {n : Nat} (x : Char)
    (h : Edits xs ys n) : Edits (xs ++ [x]) ys (n + 1) := by
  induction h with
  | nil => exact Edits.del x Edits.nil
  | copy d _ ih => exact Edits.copy d ih
  | subst a b hab _ ih => exact Edits.subst a b hab ih
  | ins b _ ih => exact Edits.ins b ih
  | del a _ ih => exact Edits.del a ih

theorem Edits_reverse {xs ys : List Char} {n : Nat} (h : Edits xs ys n) :
    Edits xs.reverse ys.reverse n := by
  induction h with
  | nil => exact Edits.nil
  | copy c _ ih => simpa [List.reverse_cons] using Edits_snoc_copy c ih
  | subst x y hne _ ih => simpa [List.reverse_cons] using Edits_snoc_subst x y hne ih
  | ins y _ ih => simpa [List.reverse_cons] using Edits_snoc_ins y ih
  | del x _ ih => simpa [List.reverse_cons] using Edits_snoc_del x ih

theorem lev_reverse (xs ys : List Char) :
    lev xs.reverse ys.reverse = lev xs ys := by
  refine le_antisymm (lev_le_of_Edits (Edits_reverse (Edits_lev xs ys))) ?_
  have h := lev_le_of_Edits (Edits_reverse (Edits_lev xs.reverse ys.reverse))
  simpa using h

theorem lev_snoc_snoc (a b : List Char) (x y : Char) :
    lev (a ++ [x]) (b ++ [y]) =
      min (lev a (b ++ [y]) + 1)
        (min (lev (a ++ [x]) b + 1) (lev a b + (if x = y then 0 else 1))) := by
  have h1 : lev (a ++ [x]) (b ++ [y]) = lev (x :: a.reverse) (y :: b.reverse) := by
    have := lev_reverse (a ++ [x]) (b ++ [y])
    simpa [List.reverse_append] using this.symm
  have e1 : lev a.reverse (y :: b.reverse) = lev a (b ++ [y]) := by
    have := lev_reverse a (b ++ [y])
    simpa [List.reverse_append] using this
  have e2 : lev (x :: a.reverse) b.reverse = lev (a ++ [x]) b := by
    have := lev_reverse (a ++ [x]) b
    simpa [List.reverse_append] using this
  have e3 : lev a.reverse b.reverse = lev a b := lev_reverse a b
  rw [h1, lev_cons_cons, e1, e2, e3]

theorem rowFrom_cons_shape (a : List Char) :
    ∀ (s2s b : List Char), ∃ t, rowFrom a s2s b = lev a b :: t := by
  intro s2s b
  cases s2s with
  | nil => exact ⟨[], rfl⟩
  | cons c rest => exact ⟨rowFrom a rest (b ++ [c]), rfl⟩

theorem buildRow_rowFrom (x : Char) :
    ∀ (s2s a b : List Char),
      lev (a ++ [x]) b :: buildRow x s2s (rowFrom a s2s b) (lev (a ++ [x]) b) =
        rowFrom (a ++ [x]) s2s b := by
  intro s2s
  induction s2s with
  | nil =>
    intro a b
    simp [buildRow, rowFrom]
  | cons c rest ih =>
    intro a b
    obtain ⟨t, ht⟩ := rowFrom_cons_shape a rest (b ++ [c])
    show lev (a ++ [x]) b ::
        buildRow x (c :: rest) (rowFrom a (c :: rest) b) (lev (a ++ [x]) b) = _
    rw [show rowFrom a (c :: rest) b = lev a b :: rowFrom a rest (b ++ [c]) from rfl, ht]
    show lev (a ++ [x]) b ::
        (min (lev a (b ++ [c]) + 1)
          (min (lev (a ++ [x]) b + 1) (lev a b + (if x = c then 0 else 1)))) ::
        buildRow x rest (lev a (b ++ [c]) :: t)
          (min (lev a (b ++ [c]) + 1)
            (min (lev (a ++ [x]) b + 1) (lev a b + (if x = c then 0 else 1)))) = _
    rw [← lev_snoc_snoc a b x c, ← ht]
    rw [show rowFrom (a ++ [x]) (c :: rest) b =
      lev (a ++ [x]) b :: rowFrom (a ++ [x]) rest (b ++ [c]) from rfl]
    rw [← ih a (b ++ [c])]

theorem dpRows_rowFrom (s2 : List Char) :
    ∀ (s1t a : List Char),
      dpRows s2 s1t (rowFrom a s2 []) a.length = rowFrom (a ++ s1t) s2 [] := by
  intro s1t
  induction s1t with
  | nil =>
    intro a
    simp [dpRows]
  | cons c1 rest ih =>
    intro a
    show dpRows s2 rest
        ((a.length + 1) :: buildRow c1 s2 (rowFrom a s2 []) (a.length + 1))
        (a.length + 1) = _
    have hl : a.length + 1 = lev (a ++ [c1]) [] := by
      rw [lev_nil_right]
      simp
    rw [hl, buildRow_rowFrom c1 s2 a []]
    have hlen : lev (a ++ [c1]) [] = (a ++ [c1]).length := lev_nil_right _
    rw [hlen, ih (a ++ [c1])]
    rw [List.append_assoc]
    rfl

theorem rowFrom_nil_left :
    ∀ (s2s b : List Char),
      rowFrom [] s2s b = (List.range (s2s.length + 1)).map (fun j => b.length + j) := by
  intro s2s
  induction s2s with
  | nil =>
    intro b
    have h1 : List.range 1 = [0] := rfl
    simp [rowFrom, lev_nil_left, h1]
  | cons c rest ih =>
    intro b
    show lev [] b :: rowFrom [] rest (b ++ [c]) = _
    rw [lev_nil_left, ih (b ++ [c])]
    conv_rhs => rw [List.range_succ_eq_map]
    rw [List.map_cons, List.map_map]
    simp only [List.length_append, List.length_cons, List.length_nil, Nat.add_zero]
    congr 1
    apply List.map_congr_left
    intro j _
    simp only [Function.comp_apply]
    omega

theorem range_eq_rowFrom (s2 : List Char) :
    List.range (s2.length + 1) = rowFrom [] s2 [] := by
  rw [rowFrom_nil_left s2 []]
  simp

theorem rowFrom_getLastD (a : List Char) :
    ∀ (s2s b : List Char) (d : Nat),
      (rowFrom a s2s b).getLastD d = lev a (b ++ s2s) := by
  intro s2s
  induction s2s with
  | nil =>
    intro b d
    simp [rowFrom]
  | cons c rest ih =>
    intro b d
    show (lev a b :: rowFrom a rest (b ++ [c])).getLastD d = _
    rw [List.getLastD_cons, ih (b ++ [c]) (lev a b), List.append_assoc]
    rfl

theorem levCore_eq_lev (s1 s2 : List Char) : levCore s1 s2 = lev s1 s2 := by
  unfold levCore
  by_cases h : s2.length = 0
  · have h2 : s2 = [] := List.length_eq_zero.mp h
    subst h2
    simp [lev_nil_right]
  · simp only [h, if_false]
    rw [range_eq_rowFrom s2]
    have h0 : (0 : Nat) = ([] : List Char).length := rfl
    rw [h0, dpRows_rowFrom s2 s1 [], rowFrom_getLastD]
    simp

theorem levenshtein_eq_lev (s1 s2 : List Char) : levenshtein s1 s2 = lev s1 s2 := by
  unfold levenshtein
  by_cases h : s1.length < s2.length
  · simp only [h, if_true]
    rw [levCore_eq_lev, lev_symm]
  · simp only [h, if_false]
    exact levCore_eq_lev s1 s2

/-- Claim C9: the source's `levenshtein` computes exactly the Levenshtein
distance: its value is achieved by an alignment of single-character
insertions, deletions and substitutions (cost 1 each), no alignment does
better, and the function is symmetric. -/
theorem C9_levenshtein_correct (a b : List Char) :
    Edits a b (levenshtein a b) ∧
      (∀ n, Edits a b n → levenshtein a b ≤ n) ∧
      levenshtein a b = levenshtein b a := by
  rw [levenshtein_eq_lev a b, levenshtein_eq_lev b a]
  exact ⟨Edits_lev a b, fun _ h => lev_le_of_Edits h, lev_symm a b⟩

/-- Witness for C9 at a concrete input. -/
theorem C9_witness :
    Edits ['a'] ['b'] 1 ∧ levenshtein ['a'] ['b'] ≤ 1 ∧
      levenshtein ['a'] ['b'] = levenshtein ['b'] ['a'] := by
  have hsc : Edits ['a'] ['b'] 1 := Edits.subst 'a' 'b' (by decide) Edits.nil
  exact ⟨hsc, (C9_levenshtein_correct ['a'] ['b']).2.1 1 hsc,
    (C9_levenshtein_correct ['a'] ['b']).2.2⟩

/-! ### C2: the matcher's decision structure -/

theorem Edits_zero : ∀ {a b : List Char} {n : Nat}, Edits a b n → n = 0 → a = b := by
  intro a b n h
  induction h with
  | nil => intro _; rfl
  | copy c _ ih => intro h0; rw [ih h0]
  | subst x y hne _ _ => intro h0; omega
  | ins y _ _ => intro h0; omega
  | del x _ _ => intro h0; omega

theorem lev_eq_zero {a b : List Char} (h : lev a b = 0) : a = b := by
  have h2 := Edits_lev a b
  rw [h] at h2
  exact Edits_zero h2 rfl

theorem strContains_iff (rt ct : List Char) :
    strContains rt ct = true ↔
      ∃ i < rt.length - ct.length + 1, (rt.drop i).take ct.length = ct := by
  unfold strContains
  rw [List.any_eq_true]
  constructor
  · rintro ⟨i, hi, hp⟩
    rw [List.mem_range] at hi
    exact ⟨i, hi, by simpa using hp⟩
  · rintro ⟨i, hi, hp⟩
    exact ⟨i, List.mem_range.mpr hi, by simpa using hp⟩

/-- Claim C2: the matcher's full decision structure at every input: exact
substring of the normalized strings gives `(true, false)`; otherwise,
with positive tolerance, the approximate search succeeds with
`(true, true)` exactly when some window of the title's exact length (or,
for a title longer than the text, the whole text) is within Levenshtein
distance `tolerance`; in all remaining cases — including every non-substring
case at tolerance 0 — the result is `(false, false)`. -/
theorem C2_matcher_decision (title ref : List Char) (tol : Nat) :
    (strContains (normalizeW ref) (normalizeW title) = true →
      is_title_in_reference title ref tol = (true, false)) ∧
    (strContains (normalizeW ref) (normalizeW title) = false → 0 < tol →
      (normalizeW title).length ≤ (normalizeW ref).length →
      (is_title_in_reference title ref tol = (true, true) ↔
        ∃ i < (normalizeW ref).length - (normalizeW title).length + 1,
          lev (normalizeW title)
            (((normalizeW ref).drop i).take (normalizeW title).length) ≤ tol)) ∧
    (strContains (normalizeW ref) (normalizeW title) = false → 0 < tol →
      (normalizeW ref).length < (normalizeW title).length →
      (is_title_in_reference title ref tol = (true, true) ↔
        lev (normalizeW title) (normalizeW ref) ≤ tol)) ∧
    (strContains (normalizeW ref) (normalizeW title) = false → tol = 0 →
      is_title_in_reference title ref tol = (false, false)) ∧
    (strContains (normalizeW ref) (normalizeW title) = false →
      is_title_in_reference title ref tol ≠ (true, true) →
      is_title_in_reference title ref tol = (false, false)) := by
  refine ⟨?_, ?_, ?_, ?_, ?_⟩
  · intro hc
    unfold is_title_in_reference
    simp [hc]
  · intro hc htol hlen
    unfold is_title_in_reference
    simp only [hc, Bool.false_eq_true, if_false, hlen, if_true]
    by_cases hany : (List.range ((normalizeW ref).length - (normalizeW title).length + 1)).any
        (fun i => levenshtein (normalizeW title)
          (((normalizeW ref).drop i).take (normalizeW title).length) ≤ tol)
    · simp only [hany, if_true, true_iff]
      rw [List.any_eq_true] at hany
      obtain ⟨i, hi, hle⟩ := hany
      rw [List.mem_range] at hi
      rw [decide_eq_true_eq, levenshtein_eq_lev] at hle
      exact ⟨i, hi, hle⟩
    · simp only [hany, Bool.false_eq_true, if_false]
      constructor
      · intro h
        exact absurd h (by simp)
      · rintro ⟨i, hi, hle⟩
        exfalso
        apply hany
        rw [List.any_eq_true]
        refine ⟨i, List.mem_range.mpr hi, ?_⟩
        rw [decide_eq_true_eq, levenshtein_eq_lev]
        exact hle
  · intro hc htol hlen
    unfold is_title_in_reference
    have hnle : ¬((normalizeW title).length ≤ (normalizeW ref).length) := by omega
    simp only [hc, Bool.false_eq_true, if_false, hnle, if_false]
    by_cases hle : levenshtein (normalizeW title) (normalizeW ref) ≤ tol
    · rw [levenshtein_eq_lev] at hle
      simp [hle, ← levenshtein_eq_lev]
    · rw [levenshtein_eq_lev] at hle
      simp [hle, ← levenshtein_eq_lev]
  · intro hc htol
    subst htol
    unfold is_title_in_reference
    simp only [hc, Bool.false_eq_true, if_false]
    by_cases hlen : (normalizeW title).length ≤ (normalizeW ref).length
    · simp only [hlen, if_true]
      have hany : (List.range ((normalizeW ref).length - (normalizeW title).length + 1)).any
          (fun i => levenshtein (normalizeW title)
            (((normalizeW ref).drop i).take (normalizeW title).length) ≤ 0) = false := by
        cases hb : (List.range ((normalizeW ref).length - (normalizeW title).length + 1)).any
            (fun i => levenshtein (normalizeW title)
              (((normalizeW ref).drop i).take (normalizeW title).length) ≤ 0) with
        | false => rfl
        | true =>
          exfalso
          rw [List.any_eq_true] at hb
          obtain ⟨i, hi, hle⟩ := hb
          rw [List.mem_range] at hi
          rw [decide_eq_true_eq, Nat.le_zero, levenshtein_eq_lev] at hle
          have heq := lev_eq_zero hle
          have hcon : strContains (normalizeW ref) (normalizeW title) = true := by
            rw [strContains_iff]
            exact ⟨i, hi, heq.symm⟩
          rw [hc] at hcon
          exact Bool.false_ne_true hcon
      rw [hany]
      simp
    · simp only [hlen, if_false]
      have hne : ¬(levenshtein (normalizeW title) (normalizeW ref) ≤ 0) := by
        intro hle
        rw [Nat.le_zero, levenshtein_eq_lev] at hle
        have heq := lev_eq_zero hle
        apply hlen
        rw [heq]
      simp [hne]
  · intro hc hne
    unfold is_title_in_reference at hne ⊢
    simp only [hc, Bool.false_eq_true, if_false] at hne ⊢
    by_cases hlen : (normalizeW title).length ≤ (normalizeW ref).length
    · simp only [hlen, if_true] at hne ⊢
      by_cases hany : (List.range ((normalizeW ref).length - (normalizeW title).length + 1)).any
          (fun i => levenshtein (normalizeW title)
            (((normalizeW ref).drop i).take (normalizeW title).length) ≤ tol)
      · simp [hany] at hne
      · simp [hany]
    · simp only [hlen, if_false] at hne ⊢
      by_cases hle : levenshtein (normalizeW title) (normalizeW ref) ≤ tol
      · simp [hle] at hne
      · simp [hle]

set_option maxRecDepth 100000 in
/-- Witness for C2 at a concrete input. -/
theorem C2_witness :
    strContains (normalizeW "xaz".toList) (normalizeW "ab".toList) = false ∧
      is_title_in_reference "ab".toList "xaz".toList 1 = (true, true) := by
  refine ⟨by decide, ?_⟩
  refine ((C2_matcher_decision "ab".toList "xaz".toList 1).2.1 (by decide) (by omega)
    (by decide)).mpr ?_
  refine ⟨1, by decide, ?_⟩
  rw [← levenshtein_eq_lev]
  decide

/-! ### C4: the shape of extracted DOIs -/

theorem C4_counterexample :
    extract_doi "10.1234/.".toList = some "10.1234/".toList ∧
      ¬ claimedDoiShape "10.1234/".toList := by
  refine ⟨by decide, ?_⟩
  rintro ⟨ds, suf, heq, h4, _, _, _, hsuf⟩
  have hl := congrArg List.length heq
  simp only [List.length_cons, List.length_append] at hl
  have hpos : 0 < suf.length := List.length_pos.mpr hsuf
  have h8 : ("10.1234/".toList).length = 8 := by decide
  rw [h8] at hl
  omega

theorem mem_takeWhile_pred {p : α → Bool} :
    ∀ {l : List α} {c : α}, c ∈ l.takeWhile p → p c = true := by
  intro l
  induction l with
  | nil => intro c h; simp [List.takeWhile] at h
  | cons x xs ih =>
    intro c h
    rw [List.takeWhile_cons] at h
    by_cases hp : p x
    · simp only [hp, if_true, List.mem_cons] at h
      rcases h with h | h
      · rw [h]; exact hp
      · exact ih h
    · simp [hp] at h

theorem doiMatchAt_shape {cs t : List Char} (h : doiMatchAt cs = some t) :
    ∃ ds suf, t = '1' :: '0' :: '.' :: (ds ++ '/' :: suf) ∧
      4 ≤ ds.length ∧ ds.length ≤ 9 ∧ (∀ c ∈ ds, isDigitC c = true) ∧
      (∀ c ∈ suf, isDoiSufChar c = true) ∧ suf ≠ [] := by
  unfold doiMatchAt at h
  split at h
  · rename_i rest
    dsimp only at h
    split at h
    · rename_i hdig
      split at h
      · rename_i rest2 hdrop
        split at h
        · simp at h
        · rename_i hsuf
          rw [Option.some_inj] at h
          refine ⟨rest.takeWhile isDigitC, rest2.takeWhile isDoiSufChar, h.symm,
            hdig.1, hdig.2, ?_, ?_, ?_⟩
          · intro c hc
            exact mem_takeWhile_pred hc
          · intro c hc
            exact mem_takeWhile_pred hc
          · simpa [List.isEmpty_iff] using hsuf
      · simp at h
    · simp at h
  · simp at h

theorem scanDoi_shape : ∀ {s t : List Char}, scanDoi s = some t →
    ∃ cs, doiMatchAt cs = some t := by
  intro s
  induction s with
  | nil => intro t h; simp [scanDoi] at h
  | cons c cs ih =>
    intro t h
    unfold scanDoi at h
    split at h
    · rename_i t' hm
      rw [Option.some_inj] at h
      exact ⟨c :: cs, by rw [hm, h]⟩
    · exact ih h

theorem dropWhile_head_not {p : α → Bool} :
    ∀ {l : List α} {c : α}, (l.dropWhile p).head? = some c → p c = false := by
  intro l
  induction l with
  | nil => intro c h; simp [List.dropWhile] at h
  | cons x xs ih =>
    intro c h
    rw [List.dropWhile_cons] at h
    by_cases hp : p x
    · simp only [hp, if_true] at h
      exact ih h
    · simp only [hp, Bool.false_eq_true, if_false, List.head?_cons, Option.some_inj] at h
      rw [← h]
      exact Bool.not_eq_true _ |>.mp hp

theorem rstripPunct_append (pre suf : List Char) :
    rstripPunct (pre ++ '/' :: suf) =
      pre ++ '/' :: (suf.reverse.dropWhile isStripPunct).reverse := by
  unfold rstripPunct
  have hl : (pre ++ '/' :: suf).reverse = suf.reverse ++ '/' :: pre.reverse := by
    simp
  rw [hl]
  have hp : isStripPunct '/' = false := by decide
  have hdr : List.dropWhile isStripPunct (suf.reverse ++ '/' :: pre.reverse) =
      List.dropWhile isStripPunct suf.reverse ++ '/' :: pre.reverse := by
    rw [List.dropWhile_append]
    by_cases he : (List.dropWhile isStripPunct suf.reverse).isEmpty
    · rw [if_pos he]
      rw [List.dropWhile_cons]
      simp only [hp, Bool.false_eq_true, if_false]
      rw [List.isEmpty_iff] at he
      rw [he]
      simp
    · rw [if_neg he]
  show (List.dropWhile (fun c => c = ' ' || c = '.' || c = ';' || c = ',')
      (suf.reverse ++ '/' :: pre.reverse)).reverse = _
  have : (fun c : Char => c = ' ' || c = '.' || c = ';' || c = ',') = isStripPunct := rfl
  rw [this, hdr]
  simp

theorem getLast?_of_append_cons (pre X : List Char) :
    ∀ c, (pre ++ '/' :: X).getLast? = some c → (X = [] ∧ c = '/') ∨ X.getLast? = some c := by
  intro c h
  rw [← List.head?_reverse] at h
  rw [show (pre ++ '/' :: X).reverse = X.reverse ++ '/' :: pre.reverse from by simp] at h
  cases hx : X.reverse with
  | nil =>
    have hXnil : X = [] := by simpa using congrArg List.reverse hx
    rw [hx] at h
    simp only [List.nil_append, List.head?_cons, Option.some_inj] at h
    exact Or.inl ⟨hXnil, h.symm⟩
  | cons y ys =>
    rw [hx] at h
    simp only [List.cons_append, List.head?_cons, Option.some_inj] at h
    right
    rw [← List.head?_reverse, hx]
    rw [List.head?_cons, h]

/-- Claim C4, amended: every extracted DOI is the literal `10.` followed
by 4 to 9 digits, a `/`, and a POSSIBLY-EMPTY suffix of DOI characters
(stripping the trailing punctuation can consume the whole suffix, e.g.
`extract_doi("10.1234/.") = "10.1234/"`), and the result never ends in a
space, period, semicolon or comma; the two concrete examples of the claim
hold as stated. -/
theorem C4_amended_doi_shape (s d : List Char) (h : extract_doi s = some d) :
    (∃ ds suf, d = '1' :: '0' :: '.' :: (ds ++ '/' :: suf) ∧
      4 ≤ ds.length ∧ ds.length ≤ 9 ∧ (∀ c ∈ ds, isDigitC c = true) ∧
      (∀ c ∈ suf, isDoiSufChar c = true) ∧
      (∀ c, d.getLast? = some c → isStripPunct c = false)) ∧
    extract_doi "See doi:10.1000/xyz123.".toList = some "10.1000/xyz123".toList ∧
    extract_doi "no id here".toList = none := by
  refine ⟨?_, by decide, by decide⟩
  unfold extract_doi at h
  cases hs : scanDoi s with
  | none => rw [hs] at h; simp at h
  | some t =>
    rw [hs] at h
    rw [Option.map_some', Option.some_inj] at h
    obtain ⟨cs, hm⟩ := scanDoi_shape hs
    obtain ⟨ds, suf, ht, h4, h9, hds, hsuf, hne⟩ := doiMatchAt_shape hm
    subst ht
    have hpre : '1' :: '0' :: '.' :: (ds ++ '/' :: suf) =
        ('1' :: '0' :: '.' :: ds) ++ '/' :: suf := by simp
    rw [hpre, rstripPunct_append] at h
    refine ⟨ds, (suf.reverse.dropWhile isStripPunct).reverse, by rw [← h]; simp,
      h4, h9, hds, ?_, ?_⟩
    · intro c hc
      apply hsuf
      have hmem : c ∈ suf.reverse.dropWhile isStripPunct := by
        simpa using hc
      have hmem2 : c ∈ suf.reverse :=
        List.Sublist.mem hmem (List.dropWhile_sublist isStripPunct)
      simpa using hmem2
    · intro c hlast
      rw [← h] at hlast
      rcases getLast?_of_append_cons ('1' :: '0' :: '.' :: ds) _ c hlast with
        ⟨_, hc⟩ | hX
      · rw [hc]
        decide
      · have hhd : (suf.reverse.dropWhile isStripPunct).head? = some c := by
          rw [← List.getLast?_reverse]
          exact hX
        exact dropWhile_head_not hhd

set_option maxRecDepth 100000 in
/-- Witness for C4 (amended) at the spec's concrete example. -/
theorem C4_witness :
    extract_doi "See doi:10.1000/xyz123.".toList = some "10.1000/xyz123".toList ∧
      (∃ ds suf, "10.1000/xyz123".toList = '1' :: '0' :: '.' :: (ds ++ '/' :: suf) ∧
        4 ≤ ds.length ∧ ds.length ≤ 9 ∧ (∀ c ∈ ds, isDigitC c = true) ∧
        (∀ c ∈ suf, isDoiSufChar c = true) ∧
        (∀ c, ("10.1000/xyz123".toList).getLast? = some c → isStripPunct c = false)) :=
  ⟨by decide,
    (C4_amended_doi_shape "See doi:10.1000/xyz123.".toList "10.1000/xyz123".toList
      (by decide)).1⟩

/-! ### C5: the summary report's denominator -/

theorem runRefs_counts (lookup : List Char → Option CrossrefRecord) (tol : Nat)
    (refs : List (List Char)) :
    (runRefs lookup tol refs).correct + (runRefs lookup tol refs).incorrect =
      (runRefs lookup tol refs).with_doi := by
  suffices h : ∀ (rs : List (List Char)) (st : RunState),
      st.correct + st.incorrect = st.with_doi →
      (rs.foldl (processRef lookup tol) st).correct +
        (rs.foldl (processRef lookup tol) st).incorrect =
        (rs.foldl (processRef lookup tol) st).with_doi by
    exact h refs initState rfl
  intro rs
  induction rs with
  | nil => intro st hst; exact hst
  | cons r rest ih =>
    intro st hst
    rw [List.foldl_cons]
    apply ih
    unfold processRef
    cases extract_doi r with
    | none => dsimp only; omega
    | some doi =>
      dsimp only
      cases lookup doi with
      | none => dsimp only; omega
      | some entry =>
        dsimp only
        by_cases hm : (is_title_in_reference entry.title r tol).1
        · simp only [hm, if_true]
          omega
        · simp only [hm, Bool.false_eq_true, if_false]
          omega

/-- Claim C5, as stated: the summary's denominator for the verified and
mismatched percentages is the count of entries with an identifier, for
every value of that count including zero.  False: when no entry has a
DOI the code substitutes `1` (`with_doi if with_doi > 0 else 1`), so the
reported denominator is `1`, not `0`. -/
theorem C5_counterexample :
    (runRefs (fun _ => none) 0 ["no id here".toList]).with_doi = 0 ∧
      total_verified_references (runRefs (fun _ => none) 0 ["no id here".toList]) = 1 ∧
      total_verified_references (runRefs (fun _ => none) 0 ["no id here".toList]) ≠
        (runRefs (fun _ => none) 0 ["no id here".toList]).with_doi := by
  refine ⟨by decide, by decide, ?_⟩
  intro hcon
  rw [show (runRefs (fun _ => none) 0 ["no id here".toList]).with_doi = 0 from by decide] at hcon
  rw [show total_verified_references (runRefs (fun _ => none) 0 ["no id here".toList]) = 1
    from by decide] at hcon
  omega

/-- Claim C5, amended: when at least one entry has an identifier, the
verified and mismatched percentages use the count of entries with an
identifier as their denominator (`verified% = 100·correct/with_doi`,
`mismatched% = 100·incorrect/with_doi`); when that count is zero the code
substitutes the denominator `1` to avoid dividing by zero, and both
percentages are then `0`. -/
theorem C5_amended_summary (lookup : List Char → Option CrossrefRecord)
    (tol : Nat) (refs : List (List Char)) :
    (0 < (runRefs lookup tol refs).with_doi →
      total_verified_references (runRefs lookup tol refs) =
        (runRefs lookup tol refs).with_doi ∧
      correct_percentage (runRefs lookup tol refs) =
        ((runRefs lookup tol refs).correct : ℚ) /
          ((runRefs lookup tol refs).with_doi : ℚ) * 100 ∧
      incorrect_percentage (runRefs lookup tol refs) =
        ((runRefs lookup tol refs).incorrect : ℚ) /
          ((runRefs lookup tol refs).with_doi : ℚ) * 100) ∧
    ((runRefs lookup tol refs).with_doi = 0 →
      total_verified_references (runRefs lookup tol refs) = 1 ∧
      correct_percentage (runRefs lookup tol refs) = 0 ∧
      incorrect_percentage (runRefs lookup tol refs) = 0) := by
  constructor
  · intro hpos
    unfold correct_percentage incorrect_percentage total_verified_references
    rw [if_pos hpos]
    exact ⟨rfl, rfl, rfl⟩
  · intro hzero
    have hc := runRefs_counts lookup tol refs
    rw [hzero] at hc
    have hcor : (runRefs lookup tol refs).correct = 0 := by omega
    have hinc : (runRefs lookup tol refs).incorrect = 0 := by omega
    unfold correct_percentage incorrect_percentage total_verified_references
    rw [hzero, hcor, hinc]
    norm_num

set_option maxRecDepth 1000000 in
/-- Witness for C5 (amended) at a concrete run. -/
theorem C5_witness :
    0 < (runRefs (fun _ => some ⟨"A b".toList⟩) 0 ["A b. 10.1234/abcd".toList]).with_doi ∧
      total_verified_references
          (runRefs (fun _ => some ⟨"A b".toList⟩) 0 ["A b. 10.1234/abcd".toList]) =
        (runRefs (fun _ => some ⟨"A b".toList⟩) 0 ["A b. 10.1234/abcd".toList]).with_doi :=
  ⟨by decide,
    ((C5_amended_summary (fun _ => some ⟨"A b".toList⟩) 0
      ["A b. 10.1234/abcd".toList]).1 (by decide)).1⟩

/-! ### C7: string-trimming lemmas -/

theorem dropWhile_dropWhile (p : α → Bool) (l : List α) :
    (l.dropWhile p).dropWhile p = l.dropWhile p := by
  induction l with
  | nil => rfl
  | cons x xs ih =>
    rw [List.dropWhile_cons]
    by_cases h : p x
    · simp [h, ih]
    · simp [h, List.dropWhile_cons]

theorem dropWhile_eq_of_length {p : α → Bool} {l : List α}
    (h : (l.dropWhile p).length = l.length) : l.dropWhile p = l := by
  cases l with
  | nil => rfl
  | cons x xs =>
    rw [List.dropWhile_cons] at h ⊢
    by_cases hp : p x
    · rw [if_pos hp] at h
      have := length_dropWhile_le p xs
      simp only [List.length_cons] at h
      omega
    · rw [if_neg hp]

theorem mem_lstrip {l : List Char} {c : Char} (h : c ∈ lstrip l) : c ∈ l :=
  List.Sublist.mem h (List.dropWhile_sublist _)

theorem mem_rstrip {l : List Char} {c : Char} (h : c ∈ rstrip l) : c ∈ l := by
  unfold rstrip at h
  rw [List.mem_reverse] at h
  have h2 := List.Sublist.mem h (List.dropWhile_sublist _)
  rwa [List.mem_reverse] at h2

theorem mem_strip {l : List Char} {c : Char} (h : c ∈ strip l) : c ∈ l :=
  mem_rstrip (mem_lstrip h)

theorem mem_of_getLast? {l : List Char} {c : Char} (h : l.getLast? = some c) :
    c ∈ l := by
  rw [← List.head?_reverse] at h
  have h2 := List.mem_of_mem_head? (by rw [h]; exact Option.mem_some_iff.mpr rfl)
  rwa [List.mem_reverse] at h2

theorem rstrip_eq_self {l : List Char}
    (h : ∀ c, l.getLast? = some c → isWS c = false) : rstrip l = l := by
  unfold rstrip
  cases hr : l.reverse with
  | nil =>
    have hl : l = [] := by simpa using congrArg List.reverse hr
    subst hl
    rfl
  | cons c cs =>
    have hc : l.getLast? = some c := by
      rw [← List.head?_reverse, hr]
      rfl
    have hws := h c hc
    rw [List.dropWhile_cons, hws]
    simp only [Bool.false_eq_true, if_false]
    rw [← hr, List.reverse_reverse]

theorem rstrip_getLast_not_ws {l : List Char} {c : Char}
    (h : (rstrip l).getLast? = some c) : isWS c = false := by
  unfold rstrip at h
  rw [List.getLast?_reverse] at h
  exact dropWhile_head_not h

theorem rstrip_idem (l : List Char) : rstrip (rstrip l) = rstrip l :=
  rstrip_eq_self (fun _ h => rstrip_getLast_not_ws h)

theorem getLast?_dropWhile {p : α → Bool} {l : List α}
    (h : l.dropWhile p ≠ []) : (l.dropWhile p).getLast? = l.getLast? := by
  conv_rhs => rw [← List.takeWhile_append_dropWhile p l]
  rw [List.getLast?_append]
  cases hg : (l.dropWhile p).getLast? with
  | none => exact absurd (List.getLast?_eq_none_iff.mp hg) h
  | some d => rfl

theorem strip_getLast? {l : List Char} (h : strip l ≠ []) :
    (strip l).getLast? = (rstrip l).getLast? :=
  getLast?_dropWhile h

theorem rstrip_strip (l : List Char) : rstrip (strip l) = strip l := by
  by_cases h : strip l = []
  · rw [h]
    rfl
  · apply rstrip_eq_self
    intro c hc
    rw [strip_getLast? h] at hc
    exact rstrip_getLast_not_ws hc

theorem strip_idem (l : List Char) : strip (strip l) = strip l := by
  show lstrip (rstrip (strip l)) = strip l
  rw [rstrip_strip]
  show lstrip (lstrip (rstrip l)) = lstrip (rstrip l)
  exact dropWhile_dropWhile _ _

theorem rstrip_length_le (l : List Char) : (rstrip l).length ≤ l.length := by
  unfold rstrip
  rw [List.length_reverse]
  exact le_trans (length_dropWhile_le _ _) (le_of_eq (List.length_reverse _))

theorem strip_fixed_rstrip {l : List Char} (h : strip l = l) : rstrip l = l := by
  have h2 : (strip l).length = l.length := by rw [h]
  have h3 : (rstrip l).length ≤ l.length := rstrip_length_le l
  have h4 : (strip l).length ≤ (rstrip l).length := length_dropWhile_le isWS (rstrip l)
  have h5 : (rstrip l).length = l.length := by omega
  unfold rstrip at h5 ⊢
  rw [List.length_reverse] at h5
  have h6 : (List.dropWhile isWS l.reverse).length = l.reverse.length := by
    rw [h5, List.length_reverse]
  rw [dropWhile_eq_of_length h6, List.reverse_reverse]

theorem strip_ne_nil {l : List Char} (hr : rstrip l = l) (hne : l ≠ []) :
    strip l ≠ [] := by
  obtain ⟨c, hc⟩ : ∃ c, l.getLast? = some c := by
    cases hl : l.getLast? with
    | none => exact absurd (List.getLast?_eq_none_iff.mp hl) hne
    | some c => exact ⟨c, rfl⟩
  have hcw : isWS c = false := by
    rw [← hr] at hc
    exact rstrip_getLast_not_ws hc
  intro hnil
  have hall : ∀ x ∈ rstrip l, isWS x = true := List.dropWhile_eq_nil_iff.mp hnil
  rw [hr] at hall
  rw [hall c (mem_of_getLast? hc)] at hcw
  simp at hcw

theorem getLast?_append_right {x s : List Char} (h : s ≠ []) :
    (x ++ s).getLast? = s.getLast? := by
  rw [List.getLast?_append]
  cases hg : s.getLast? with
  | none => exact absurd (List.getLast?_eq_none_iff.mp hg) h
  | some d => rfl

theorem terminated_append {s : List Char} (y : List Char) (hne : s ≠ [])
    (h : terminated s = true) : terminated (y ++ s) = true := by
  unfold terminated at h ⊢
  rw [List.reverse_append]
  cases hr : s.reverse with
  | nil => exact absurd (by simpa using congrArg List.reverse hr) hne
  | cons c rest =>
    rw [hr] at h
    rw [List.cons_append]
    by_cases ha : isAlnumC c
    · simp [ha]
    · simp only [ha, Bool.false_or] at h ⊢
      cases rest with
      | nil => simp at h
      | cons c2 rest2 =>
        simp only [List.cons_append]
        exact h

/-! ### C7: `splitNl` and `joinNl` lemmas -/

theorem splitNl_cons (c : Char) (cs : List Char) :
    splitNl (c :: cs) =
      if c = '\n' then [] :: splitNl cs
      else
        match splitNl cs with
        | [] => [[c]]
        | l :: ls => (c :: l) :: ls := rfl

theorem splitNl_ne_nil (cs : List Char) : splitNl cs ≠ [] := by
  cases cs with
  | nil => simp [splitNl]
  | cons c rest =>
    rw [splitNl_cons]
    by_cases h : c = '\n'
    · simp [h]
    · simp only [h, if_false]
      cases splitNl rest <;> simp

theorem splitNl_no_nl {l : List Char} (h : ∀ c ∈ l, c ≠ '\n') :
    splitNl l = [l] := by
  induction l with
  | nil => rfl
  | cons c cs ih =>
    rw [splitNl_cons, if_neg (h c (by simp))]
    rw [ih (fun x hx => h x (by simp [hx]))]

theorem splitNl_append_nl {l : List Char} (rest : List Char)
    (h : ∀ c ∈ l, c ≠ '\n') : splitNl (l ++ '\n' :: rest) = l :: splitNl rest := by
  induction l with
  | nil =>
    show splitNl ('\n' :: rest) = [] :: splitNl rest
    rw [splitNl_cons, if_pos rfl]
  | cons c cs ih =>
    show splitNl (c :: (cs ++ '\n' :: rest)) = (c :: cs) :: splitNl rest
    rw [splitNl_cons, if_neg (h c (by simp))]
    rw [ih (fun x hx => h x (by simp [hx]))]

theorem splitNl_joinNl {L : List (List Char)} (hne : L ≠ [])
    (h : ∀ l ∈ L, ∀ c ∈ l, c ≠ '\n') : splitNl (joinNl L) = L := by
  induction L with
  | nil => exact absurd rfl hne
  | cons l ls ih =>
    cases ls with
    | nil =>
      show splitNl (joinNl [l]) = [l]
      unfold joinNl
      exact splitNl_no_nl (h l (by simp))
    | cons l2 ls2 =>
      show splitNl (l ++ '\n' :: joinNl (l2 :: ls2)) = l :: l2 :: ls2
      rw [splitNl_append_nl _ (h l (by simp))]
      rw [ih (by simp) (fun x hx c hc => h x (by simp [hx]) c hc)]

theorem mem_joinNl {L : List (List Char)} {c : Char} (h : c ∈ joinNl L) :
    c = '\n' ∨ ∃ l ∈ L, c ∈ l := by
  induction L with
  | nil => simp [joinNl] at h
  | cons l ls ih =>
    cases ls with
    | nil =>
      right
      exact ⟨l, by simp, by simpa [joinNl] using h⟩
    | cons l2 ls2 =>
      rw [show joinNl (l :: l2 :: ls2) = l ++ '\n' :: joinNl (l2 :: ls2) from rfl] at h
      rw [List.mem_append] at h
      rcases h with h | h
      · exact Or.inr ⟨l, by simp, h⟩
      · rw [List.mem_cons] at h
        rcases h with h | h
        · exact Or.inl h
        · rcases ih h with h2 | ⟨l', hl', hc⟩
          · exact Or.inl h2
          · exact Or.inr ⟨l', by simp [hl'], hc⟩

theorem mem_splitNl {cs : List Char} :
    ∀ {l : List Char}, l ∈ splitNl cs → ∀ {c : Char}, c ∈ l → c ∈ cs ∧ c ≠ '\n' := by
  induction cs with
  | nil =>
    intro l hl c hc
    simp [splitNl] at hl
    subst hl
    simp at hc
  | cons x xs ih =>
    intro l hl c hc
    unfold splitNl at hl
    by_cases hx : x = '\n'
    · rw [if_pos hx] at hl
      rw [List.mem_cons] at hl
      rcases hl with hl | hl
      · subst hl
        simp at hc
      · have := ih hl hc
        exact ⟨by simp [this.1], this.2⟩
    · rw [if_neg hx] at hl
      cases hsp : splitNl xs with
      | nil => exact absurd hsp (splitNl_ne_nil xs)
      | cons l0 ls0 =>
        rw [hsp] at hl
        rw [List.mem_cons] at hl
        rcases hl with hl | hl
        · subst hl
          rw [List.mem_cons] at hc
          rcases hc with hc | hc
          · subst hc
            exact ⟨by simp, hx⟩
          · have := ih (by rw [hsp]; simp) hc
            exact ⟨by simp [this.1], this.2⟩
        · have := ih (by rw [hsp]; simp [hl]) hc
          exact ⟨by simp [this.1], this.2⟩

/-! ### C7: `fixNl` lemmas -/

theorem fixNl_single (c : Char) : fixNl [c] = if c = '\r' then ['\n'] else [c] := rfl

theorem fixNl_cons2 (c1 c2 : Char) (cs : List Char) :
    fixNl (c1 :: c2 :: cs) =
      if c1 = '\r' then
        if c2 = '\n' then '\n' :: fixNl cs else '\n' :: fixNl (c2 :: cs)
      else c1 :: fixNl (c2 :: cs) := rfl

theorem fixNl_no_cr : ∀ {cs : List Char}, ∀ c ∈ fixNl cs, c ≠ '\r' := by
  intro cs
  induction cs using fixNl.induct with
  | case1 =>
    intro c hc
    simp [fixNl] at hc
  | case2 =>
    intro x hx
    rw [fixNl_single, if_pos rfl] at hx
    simp at hx
    subst hx
    decide
  | case3 c hc =>
    intro x hx
    rw [fixNl_single, if_neg hc] at hx
    simp at hx
    subst hx
    exact hc
  | case4 cs ih =>
    intro x hx
    rw [fixNl_cons2, if_pos rfl, if_pos rfl] at hx
    rw [List.mem_cons] at hx
    rcases hx with hx | hx
    · subst hx; decide
    · exact ih x hx
  | case5 c2 cs hc2 ih =>
    intro x hx
    rw [fixNl_cons2, if_pos rfl, if_neg hc2] at hx
    rw [List.mem_cons] at hx
    rcases hx with hx | hx
    · subst hx; decide
    · exact ih x hx
  | case6 c1 c2 cs hc1 ih =>
    intro x hx
    rw [fixNl_cons2, if_neg hc1] at hx
    rw [List.mem_cons] at hx
    rcases hx with hx | hx
    · subst hx; exact hc1
    · exact ih x hx

theorem fixNl_id : ∀ {cs : List Char}, (∀ c ∈ cs, c ≠ '\r') → fixNl cs = cs := by
  intro cs
  induction cs using fixNl.induct with
  | case1 => intro _; rfl
  | case2 =>
    intro h
    exact absurd rfl (h '\r' (by simp))
  | case3 c hc =>
    intro h
    rw [fixNl_single, if_neg hc]
  | case4 cs ih =>
    intro h
    exact absurd rfl (h '\r' (by simp))
  | case5 c2 cs hc2 ih =>
    intro h
    exact absurd rfl (h '\r' (by simp))
  | case6 c1 c2 cs hc1 ih =>
    intro h
    rw [fixNl_cons2, if_neg hc1]
    rw [ih (fun x hx => h x (by simp [List.mem_cons] at hx ⊢; tauto))]

/-! ### C7: `normLoop` lemmas -/

theorem normLoop_nil (buffer : List Char) :
    normLoop buffer [] = if buffer.isEmpty then [] else [strip buffer] := rfl

theorem normLoop_cons (buffer line : List Char) (rest : List (List Char)) :
    normLoop buffer (line :: rest) =
      if (rstrip line).isEmpty then
        (if buffer.isEmpty then [[]] else [strip buffer, []]) ++ normLoop [] rest
      else if terminated (rstrip line) then
        (if buffer.isEmpty then [rstrip line]
          else [strip (buffer ++ ' ' :: rstrip line)]) ++ normLoop [] rest
      else
        normLoop (if buffer.isEmpty then rstrip line
          else strip (buffer ++ ' ' :: rstrip line)) rest := rfl

theorem rstrip_append_of {x s : List Char} (hs : rstrip s = s) (hne : s ≠ []) :
    rstrip (x ++ s) = x ++ s := by
  apply rstrip_eq_self
  intro c hc
  rw [getLast?_append_right hne] at hc
  rw [← hs] at hc
  exact rstrip_getLast_not_ws hc

theorem lstrip_append_of {buf z : List Char} (h : lstrip buf ≠ []) :
    lstrip (buf ++ z) = lstrip buf ++ z := by
  unfold lstrip at h ⊢
  rw [List.dropWhile_append]
  rw [if_neg (by simpa [List.isEmpty_iff] using h)]

theorem lstrip_ne_nil {buf : List Char} (hr : rstrip buf = buf) (hne : buf ≠ []) :
    lstrip buf ≠ [] := by
  have h3 := strip_ne_nil hr hne
  unfold strip at h3
  rwa [hr] at h3

theorem strip_append_buf {buf s : List Char} (hr : rstrip buf = buf) (hne : buf ≠ [])
    (hs : rstrip s = s) (hsne : s ≠ []) :
    strip (buf ++ ' ' :: s) = (lstrip buf ++ [' ']) ++ s := by
  have h1 : rstrip (buf ++ ' ' :: s) = buf ++ ' ' :: s := by
    rw [show buf ++ ' ' :: s = (buf ++ [' ']) ++ s from by simp]
    exact rstrip_append_of hs hsne
  show lstrip (rstrip (buf ++ ' ' :: s)) = _
  rw [h1]
  rw [lstrip_append_of (lstrip_ne_nil hr hne)]
  simp

theorem strip_append_buf_ne {buf s : List Char} (hr : rstrip buf = buf) (hne : buf ≠ [])
    (hs : rstrip s = s) (hsne : s ≠ []) :
    strip (buf ++ ' ' :: s) ≠ [] := by
  rw [strip_append_buf hr hne hs hsne]
  simp

theorem normLoop_good : ∀ (lines : List (List Char)) (buf : List Char),
    buf = [] ∨ (rstrip buf = buf ∧ buf ≠ []) → GoodLines (normLoop buf lines) := by
  intro lines
  induction lines with
  | nil =>
    intro buf hbuf
    rw [normLoop_nil]
    rcases hbuf with h | ⟨hr, hne⟩
    · subst h
      exact GoodLines.nil
    · rw [if_neg (by simp [List.isEmpty_iff, hne])]
      by_cases ht : terminated (strip buf)
      · exact GoodLines.term (strip_ne_nil hr hne) (rstrip_strip buf) ht GoodLines.nil
      · exact GoodLines.unterm_end (strip_ne_nil hr hne) (strip_idem buf)
          (by simpa using ht)
  | cons line rest ih =>
    intro buf hbuf
    rw [normLoop_cons]
    by_cases hse : (rstrip line).isEmpty
    · rw [if_pos hse]
      rcases hbuf with h | ⟨hr, hne⟩
      · subst h
        rw [if_pos (show ([] : List Char).isEmpty = true from rfl)]
        exact GoodLines.blank (ih [] (Or.inl rfl))
      · rw [if_neg (by simp [List.isEmpty_iff, hne])]
        by_cases ht : terminated (strip buf)
        · exact GoodLines.term (strip_ne_nil hr hne) (rstrip_strip buf) ht
            (GoodLines.blank (ih [] (Or.inl rfl)))
        · exact GoodLines.unterm_blank (strip_ne_nil hr hne) (strip_idem buf)
            (by simpa using ht) (GoodLines.blank (ih [] (Or.inl rfl)))
    · rw [if_neg hse]
      have hsne : rstrip line ≠ [] := by simpa [List.isEmpty_iff] using hse
      have hsr : rstrip (rstrip line) = rstrip line := rstrip_idem line
      by_cases hterm : terminated (rstrip line)
      · rw [if_pos hterm]
        rcases hbuf with h | ⟨hr, hne⟩
        · subst h
          rw [if_pos (show ([] : List Char).isEmpty = true from rfl)]
          exact GoodLines.term hsne hsr hterm (ih [] (Or.inl rfl))
        · rw [if_neg (by simp [List.isEmpty_iff, hne])]
          have key := strip_append_buf hr hne hsr hsne
          refine GoodLines.term ?_ (rstrip_strip _) ?_ (ih [] (Or.inl rfl))
          · exact strip_append_buf_ne hr hne hsr hsne
          · rw [key]
            exact terminated_append _ hsne hterm
      · rw [if_neg hterm]
        rcases hbuf with h | ⟨hr, hne⟩
        · subst h
          rw [if_pos (show ([] : List Char).isEmpty = true from rfl)]
          exact ih (rstrip line) (Or.inr ⟨hsr, hsne⟩)
        · rw [if_neg (by simp [List.isEmpty_iff, hne])]
          exact ih _ (Or.inr ⟨rstrip_strip _, strip_append_buf_ne hr hne hsr hsne⟩)

theorem normLoop_id : ∀ {L : List (List Char)}, GoodLines L → normLoop [] L = L := by
  intro L hL
  induction hL with
  | nil => rfl
  | blank hL ih =>
    rw [normLoop_cons]
    rw [if_pos (show ([] : List Char).isEmpty = true from rfl), if_pos (show ([] : List Char).isEmpty = true from rfl), ih]
    rfl
  | term hne hr ht hL ih =>
    rename_i s L'
    rw [normLoop_cons, hr]
    rw [if_neg (by simp [List.isEmpty_iff, hne]), if_pos ht, if_pos (show ([] : List Char).isEmpty = true from rfl), ih]
    rfl
  | unterm_end hne hst ht =>
    rename_i s
    rw [normLoop_cons, strip_fixed_rstrip hst]
    rw [if_neg (by simp [List.isEmpty_iff, hne]), if_neg (by simp [ht]), if_pos (show ([] : List Char).isEmpty = true from rfl)]
    rw [normLoop_nil, if_neg (by simp [List.isEmpty_iff, hne]), hst]
  | unterm_blank hne hst ht hL ih =>
    rename_i s L'
    rw [normLoop_cons, strip_fixed_rstrip hst]
    rw [if_neg (by simp [List.isEmpty_iff, hne]), if_neg (by simp [ht]), if_pos (show ([] : List Char).isEmpty = true from rfl)]
    rw [normLoop_cons]
    rw [show rstrip ([] : List Char) = [] from rfl]
    rw [if_pos (show ([] : List Char).isEmpty = true from rfl)]
    rw [if_neg (by simp [List.isEmpty_iff, hne]), hst]
    have h3 : normLoop ([] : List Char) ([] :: L') = [] :: normLoop [] L' := by
      rw [normLoop_cons]
      rw [show rstrip ([] : List Char) = [] from rfl]
      rw [if_pos (show ([] : List Char).isEmpty = true from rfl), if_pos (show ([] : List Char).isEmpty = true from rfl)]
      rfl
    rw [h3] at ih
    have ih2 : normLoop [] L' = L' := by
      injection ih
    rw [ih2]
    rfl

theorem mem_normLoop : ∀ (lines : List (List Char)) (buf l : List Char),
    l ∈ normLoop buf lines → ∀ c ∈ l,
      c ∈ buf ∨ (∃ l' ∈ lines, c ∈ l') ∨ c = ' ' := by
  intro lines
  induction lines with
  | nil =>
    intro buf l hl c hc
    rw [normLoop_nil] at hl
    by_cases h : buf.isEmpty
    · simp [h] at hl
    · rw [if_neg h] at hl
      simp only [List.mem_singleton] at hl
      subst hl
      exact Or.inl (mem_strip hc)
  | cons line rest ih =>
    intro buf l hl c hc
    have lift : (c ∈ ([] : List Char) ∨ (∃ l' ∈ rest, c ∈ l') ∨ c = ' ') →
        c ∈ buf ∨ (∃ l' ∈ line :: rest, c ∈ l') ∨ c = ' ' := by
      rintro (h | ⟨l', hl', hcl⟩ | h)
      · simp at h
      · exact Or.inr (Or.inl ⟨l', by simp [hl'], hcl⟩)
      · exact Or.inr (Or.inr h)
    rw [normLoop_cons] at hl
    by_cases hse : (rstrip line).isEmpty
    · rw [if_pos hse] at hl
      by_cases hbe : buf.isEmpty
      · rw [if_pos hbe] at hl
        rw [show ([[]] ++ normLoop [] rest) = [] :: normLoop [] rest from rfl,
          List.mem_cons] at hl
        rcases hl with hl | hl
        · subst hl; simp at hc
        · exact lift (ih [] l hl c hc)
      · rw [if_neg hbe] at hl
        rw [show ([strip buf, []] ++ normLoop [] rest) =
          strip buf :: [] :: normLoop [] rest from rfl, List.mem_cons, List.mem_cons] at hl
        rcases hl with hl | hl | hl
        · subst hl; exact Or.inl (mem_strip hc)
        · subst hl; simp at hc
        · exact lift (ih [] l hl c hc)
    · rw [if_neg hse] at hl
      by_cases hterm : terminated (rstrip line)
      · rw [if_pos hterm] at hl
        by_cases hbe : buf.isEmpty
        · rw [if_pos hbe] at hl
          rw [show ([rstrip line] ++ normLoop [] rest) =
            rstrip line :: normLoop [] rest from rfl, List.mem_cons] at hl
          rcases hl with hl | hl
          · subst hl
            exact Or.inr (Or.inl ⟨line, by simp, mem_rstrip hc⟩)
          · exact lift (ih [] l hl c hc)
        · rw [if_neg hbe] at hl
          rw [show ([strip (buf ++ ' ' :: rstrip line)] ++ normLoop [] rest) =
            strip (buf ++ ' ' :: rstrip line) :: normLoop [] rest from rfl,
            List.mem_cons] at hl
          rcases hl with hl | hl
          · subst hl
            have h2 := mem_strip hc
            rw [List.mem_append, List.mem_cons] at h2
            rcases h2 with h2 | h2 | h2
            · exact Or.inl h2
            · exact Or.inr (Or.inr h2)
            · exact Or.inr (Or.inl ⟨line, by simp, mem_rstrip h2⟩)
          · exact lift (ih [] l hl c hc)
      · rw [if_neg hterm] at hl
        rcases ih _ l hl c hc with h | h | h
        · by_cases hbe : buf.isEmpty
          · rw [if_pos hbe] at h
            exact Or.inr (Or.inl ⟨line, by simp, mem_rstrip h⟩)
          · rw [if_neg hbe] at h
            have h2 := mem_strip h
            rw [List.mem_append, List.mem_cons] at h2
            rcases h2 with h2 | h2 | h2
            · exact Or.inl h2
            · exact Or.inr (Or.inr h2)
            · exact Or.inr (Or.inl ⟨line, by simp, mem_rstrip h2⟩)
        · obtain ⟨l', hl', hcl⟩ := h
          exact Or.inr (Or.inl ⟨l', by simp [hl'], hcl⟩)
        · exact Or.inr (Or.inr h)

theorem strip_ne_nil_of_suffix {x s : List Char} (hs : rstrip s = s) (hsne : s ≠ []) :
    strip (x ++ s) ≠ [] := by
  intro hnil
  have h1 : rstrip (x ++ s) = x ++ s := rstrip_append_of hs hsne
  have h2 : lstrip (x ++ s) = [] := by
    unfold strip at hnil
    rwa [h1] at hnil
  have hall : ∀ a ∈ x ++ s, isWS a = true := List.dropWhile_eq_nil_iff.mp h2
  obtain ⟨c, hc⟩ : ∃ c, s.getLast? = some c := by
    cases hl : s.getLast? with
    | none => exact absurd (List.getLast?_eq_none_iff.mp hl) hsne
    | some c => exact ⟨c, rfl⟩
  have hcw : isWS c = false := by
    rw [← hs] at hc
    exact rstrip_getLast_not_ws hc
  have hmem : c ∈ x ++ s := by
    rw [List.mem_append]
    exact Or.inr (mem_of_getLast? hc)
  rw [hall c hmem] at hcw
  simp at hcw

theorem normLoop_ne_nil : ∀ (lines : List (List Char)) (buf : List Char),
    lines ≠ [] ∨ buf ≠ [] → normLoop buf lines ≠ [] := by
  intro lines
  induction lines with
  | nil =>
    intro buf h
    rcases h with h | h
    · exact absurd rfl h
    · rw [normLoop_nil, if_neg (by simp [List.isEmpty_iff, h])]
      simp
  | cons line rest ih =>
    intro buf _
    rw [normLoop_cons]
    by_cases hse : (rstrip line).isEmpty
    · rw [if_pos hse]
      by_cases hbe : buf.isEmpty <;> simp [hbe]
    · rw [if_neg hse]
      by_cases hterm : terminated (rstrip line)
      · rw [if_pos hterm]
        by_cases hbe : buf.isEmpty <;> simp [hbe]
      · rw [if_neg hterm]
        apply ih
        right
        by_cases hbe : buf.isEmpty
        · rw [if_pos hbe]
          simpa [List.isEmpty_iff] using hse
        · rw [if_neg hbe]
          have hsne : rstrip line ≠ [] := by simpa [List.isEmpty_iff] using hse
          rw [show buf ++ ' ' :: rstrip line = (buf ++ [' ']) ++ rstrip line from by simp]
          exact strip_ne_nil_of_suffix (rstrip_idem line) hsne

/-- Claim C7: the text normalizer is idempotent — normalizing
already-normalized text yields the same text. -/
theorem C7_normalize_idempotent (raw : List Char) :
    normalize_text (normalize_text raw) = normalize_text raw := by
  have hgood : GoodLines (normLoop [] (splitNl (fixNl raw))) :=
    normLoop_good _ [] (Or.inl rfl)
  have hchars : ∀ l ∈ normLoop [] (splitNl (fixNl raw)), ∀ c ∈ l,
      c ≠ '\n' ∧ c ≠ '\r' := by
    intro l hl c hc
    rcases mem_normLoop _ [] l hl c hc with h | ⟨l', hl', hcl⟩ | h
    · simp at h
    · have h2 := mem_splitNl hl' hcl
      exact ⟨h2.2, fixNl_no_cr c h2.1⟩
    · subst h
      exact ⟨by decide, by decide⟩
  have hne : normLoop [] (splitNl (fixNl raw)) ≠ [] :=
    normLoop_ne_nil _ [] (Or.inl (splitNl_ne_nil _))
  unfold normalize_text
  have h1 : fixNl (joinNl (normLoop [] (splitNl (fixNl raw)))) =
      joinNl (normLoop [] (splitNl (fixNl raw))) := by
    apply fixNl_id
    intro c hc
    rcases mem_joinNl hc with h | ⟨l, hl, hcl⟩
    · subst h
      decide
    · exact (hchars l hl c hcl).2
  rw [h1]
  rw [splitNl_joinNl hne (fun l hl c hc => (hchars l hl c hc).1)]
  rw [normLoop_id hgood]

/-! ### C6: character-class facts -/

theorem lower_not_ws {c : Char} (h : isLowerC c = true) : isWS c = false := by
  cases hws : isWS c with
  | false => rfl
  | true =>
    exfalso
    unfold isWS at hws
    unfold isLowerC at h
    rw [Bool.and_eq_true, decide_eq_true_eq, decide_eq_true_eq] at h
    simp only [Bool.or_eq_true, decide_eq_true_eq] at hws
    rcases hws with ((((h1 | h1) | h1) | h1) | h1) | h1 <;> subst h1 <;>
      exact absurd h.1 (by decide)

theorem lower_not_digit {c : Char} (h : isLowerC c = true) : isDigitC c = false := by
  cases hd : isDigitC c with
  | false => rfl
  | true =>
    exfalso
    unfold isLowerC at h
    unfold isDigitC at hd
    rw [Bool.and_eq_true, decide_eq_true_eq, decide_eq_true_eq] at h hd
    exact absurd (le_trans h.1 hd.2) (by decide)

theorem lower_not_upper {c : Char} (h : isLowerC c = true) : isUpperC c = false := by
  cases hu : isUpperC c with
  | false => rfl
  | true =>
    exfalso
    unfold isLowerC at h
    unfold isUpperC at hu
    rw [Bool.and_eq_true, decide_eq_true_eq, decide_eq_true_eq] at h hu
    exact absurd (le_trans h.1 hu.2) (by decide)

theorem digit_not_upper {c : Char} (h : isDigitC c = true) : isUpperC c = false := by
  cases hu : isUpperC c with
  | false => rfl
  | true =>
    exfalso
    unfold isDigitC at h
    unfold isUpperC at hu
    rw [Bool.and_eq_true, decide_eq_true_eq, decide_eq_true_eq] at h hu
    exact absurd (le_trans hu.1 h.2) (by decide)

theorem lower_ne {c : Char} (h : isLowerC c = true) :
    c ≠ '[' ∧ c ≠ '\n' ∧ c ≠ ' ' → True := fun _ => trivial

theorem lower_ne_char {c : Char} (h : isLowerC c = true) {d : Char}
    (hd : isLowerC d = false) : c ≠ d := by
  intro he
  subst he
  rw [h] at hd
  simp at hd

theorem lowerOrSpace_inert {c : Char} (h : isLowerOrSpace c = true) :
    c ≠ '[' ∧ isDigitC c = false ∧ c ≠ '\n' := by
  unfold isLowerOrSpace at h
  rw [Bool.or_eq_true] at h
  rcases h with h | h
  · refine ⟨lower_ne_char h (by decide), lower_not_digit h, lower_ne_char h (by decide)⟩
  · rw [decide_eq_true_eq] at h
    subst h
    exact ⟨by decide, by decide, by decide⟩

theorem lowerOrSpace_not_upper {c : Char} (h : isLowerOrSpace c = true) :
    isUpperC c = false := by
  unfold isLowerOrSpace at h
  rw [Bool.or_eq_true] at h
  rcases h with h | h
  · exact lower_not_upper h
  · rw [decide_eq_true_eq] at h
    subst h
    decide

theorem plainEntry_ne_nil {e : List Char} (h : plainEntry e = true) : e ≠ [] := by
  unfold plainEntry at h
  simp only [Bool.and_eq_true, Bool.not_eq_eq_eq_not, Bool.not_true] at h
  intro he
  subst he
  simp at h

theorem plainEntry_chars {e : List Char} (h : plainEntry e = true) :
    ∀ c ∈ e, isLowerOrSpace c = true := by
  unfold plainEntry at h
  simp only [Bool.and_eq_true] at h
  exact fun c hc => List.all_eq_true.mp h.1.1.2 c hc

theorem plainEntry_head {e : List Char} (h : plainEntry e = true) :
    ∃ c t, e = c :: t ∧ isLowerC c = true := by
  have hne := plainEntry_ne_nil h
  cases e with
  | nil => exact absurd rfl hne
  | cons c t =>
    refine ⟨c, t, rfl, ?_⟩
    unfold plainEntry at h
    simp only [Bool.and_eq_true] at h
    exact h.1.2

theorem plainEntry_getLast {e : List Char} (h : plainEntry e = true) :
    ∃ c, e.getLast? = some c ∧ isLowerC c = true := by
  have hne := plainEntry_ne_nil h
  obtain ⟨c, hc⟩ : ∃ c, e.getLast? = some c := by
    cases hl : e.getLast? with
    | none => exact absurd (List.getLast?_eq_none_iff.mp hl) hne
    | some c => exact ⟨c, rfl⟩
  refine ⟨c, hc, ?_⟩
  unfold plainEntry at h
  simp only [Bool.and_eq_true] at h
  have h2 := h.2
  rwa [List.getLastD_eq_getLast?, hc] at h2

theorem numeralOk_ne_nil {d : List Char} (h : numeralOk d = true) : d ≠ [] := by
  unfold numeralOk at h
  simp only [Bool.and_eq_true, Bool.not_eq_eq_eq_not, Bool.not_true] at h
  intro he
  subst he
  simp at h

theorem numeralOk_chars {d : List Char} (h : numeralOk d = true) :
    ∀ c ∈ d, isDigitC c = true := by
  unfold numeralOk at h
  simp only [Bool.and_eq_true] at h
  exact fun c hc => List.all_eq_true.mp h.2 c hc

/-! ### C6: `takeWhile`/`dropWhile` over a satisfying prefix -/

theorem takeWhile_append_all {p : α → Bool} :
    ∀ {d l : List α}, (∀ c ∈ d, p c = true) →
      (d ++ l).takeWhile p = d ++ l.takeWhile p := by
  intro d
  induction d with
  | nil => intro l _; rfl
  | cons x xs ih =>
    intro l h
    rw [List.cons_append, List.takeWhile_cons, if_pos (h x (by simp))]
    rw [ih (fun c hc => h c (by simp [hc]))]
    rfl

theorem dropWhile_append_all {p : α → Bool} :
    ∀ {d l : List α}, (∀ c ∈ d, p c = true) →
      (d ++ l).dropWhile p = l.dropWhile p := by
  intro d
  induction d with
  | nil => intro l _; rfl
  | cons x xs ih =>
    intro l h
    rw [List.cons_append, List.dropWhile_cons, if_pos (h x (by simp))]
    exact ih (fun c hc => h c (by simp [hc]))

theorem dropWhile_of_takeWhile_nil {p : α → Bool} {l : List α}
    (h : l.takeWhile p = []) : l.dropWhile p = l := by
  cases l with
  | nil => rfl
  | cons x xs =>
    rw [List.takeWhile_cons] at h
    by_cases hp : p x
    · rw [if_pos hp] at h
      simp at h
    · rw [List.dropWhile_cons, if_neg hp]

/-! ### C6: the delimiter matchers on constructed delimiter texts -/

theorem afterWS_space {eX : List Char}
    (he : ∃ c t, eX = c :: t ∧ isWS c = false) :
    afterWS (' ' :: eX) = some (eX, false) := by
  obtain ⟨c, t, heq, hcw⟩ := he
  subst heq
  unfold afterWS
  have h1 : List.takeWhile isWS (' ' :: c :: t) = [' '] := by
    rw [List.takeWhile_cons, if_pos (show isWS ' ' = true from by decide),
      List.takeWhile_cons, if_neg (show ¬(isWS c = true) from by simp [hcw])]
  have h2 : List.dropWhile isWS (' ' :: c :: t) = c :: t := by
    rw [List.dropWhile_cons, if_pos (show isWS ' ' = true from by decide),
      List.dropWhile_cons, if_neg (show ¬(isWS c = true) from by simp [hcw])]
  rw [h1, h2]
  simp

theorem tryBracket_match {d eX : List Char}
    (hd : ∀ c ∈ d, isDigitC c = true) (hdne : d ≠ [])
    (he : ∃ c t, eX = c :: t ∧ isWS c = false) :
    tryBracket ('[' :: (d ++ ']' :: ' ' :: eX)) = some (eX, false) := by
  unfold tryBracket
  dsimp only
  rw [if_pos rfl]
  have h1 : List.takeWhile isDigitC (d ++ ']' :: ' ' :: eX) = d := by
    rw [takeWhile_append_all hd, List.takeWhile_cons,
      if_neg (show ¬(isDigitC ']' = true) from by decide), List.append_nil]
  have h2 : List.dropWhile isDigitC (d ++ ']' :: ' ' :: eX) = ']' :: ' ' :: eX := by
    rw [dropWhile_append_all hd, List.dropWhile_cons,
      if_neg (show ¬(isDigitC ']' = true) from by decide)]
  rw [h1, h2]
  rw [if_neg (show ¬(d.isEmpty = true) from by simp [List.isEmpty_iff, hdne])]
  dsimp only
  rw [if_pos rfl]
  exact afterWS_space he

theorem tryBracket_none {c : Char} {rest : List Char} (h : c ≠ '[') :
    tryBracket (c :: rest) = none := by
  unfold tryBracket
  dsimp only
  rw [if_neg h]

theorem tryNumDot_match {d eX : List Char}
    (hd : ∀ c ∈ d, isDigitC c = true) (hdne : d ≠ [])
    (he : ∃ c t, eX = c :: t ∧ isWS c = false) :
    tryNumDot (d ++ '.' :: ' ' :: eX) = some (eX, false) := by
  unfold tryNumDot
  have h1 : List.takeWhile isDigitC (d ++ '.' :: ' ' :: eX) = d := by
    rw [takeWhile_append_all hd, List.takeWhile_cons,
      if_neg (show ¬(isDigitC '.' = true) from by decide), List.append_nil]
  have h2 : List.dropWhile isDigitC (d ++ '.' :: ' ' :: eX) = '.' :: ' ' :: eX := by
    rw [dropWhile_append_all hd, List.dropWhile_cons,
      if_neg (show ¬(isDigitC '.' = true) from by decide)]
  rw [h1, h2]
  rw [if_neg (show ¬(d.isEmpty = true) from by simp [List.isEmpty_iff, hdne])]
  dsimp only
  rw [if_pos rfl]
  exact afterWS_space he

theorem tryNumDot_nondigit {c : Char} {rest : List Char} (h : isDigitC c = false) :
    tryNumDot (c :: rest) = none := by
  unfold tryNumDot
  have h1 : List.takeWhile isDigitC (c :: rest) = [] := by
    rw [List.takeWhile_cons, if_neg (show ¬(isDigitC c = true) from by simp [h])]
  rw [h1]
  rw [if_pos (show ([] : List Char).isEmpty = true from rfl)]

theorem tryNumParen_match {d eX : List Char}
    (hd : ∀ c ∈ d, isDigitC c = true) (hdne : d ≠ [])
    (he : ∃ c t, eX = c :: t ∧ isWS c = false) :
    tryNumParen (d ++ ')' :: ' ' :: eX) = some (eX, false) := by
  unfold tryNumParen
  have h1 : List.takeWhile isDigitC (d ++ ')' :: ' ' :: eX) = d := by
    rw [takeWhile_append_all hd, List.takeWhile_cons,
      if_neg (show ¬(isDigitC ')' = true) from by decide), List.append_nil]
  have h2 : List.dropWhile isDigitC (d ++ ')' :: ' ' :: eX) = ')' :: ' ' :: eX := by
    rw [dropWhile_append_all hd, List.dropWhile_cons,
      if_neg (show ¬(isDigitC ')' = true) from by decide)]
  rw [h1, h2]
  rw [if_neg (show ¬(d.isEmpty = true) from by simp [List.isEmpty_iff, hdne])]
  dsimp only
  rw [if_pos rfl]
  exact afterWS_space he

theorem tryNumParen_nondigit {c : Char} {rest : List Char} (h : isDigitC c = false) :
    tryNumParen (c :: rest) = none := by
  unfold tryNumParen
  have h1 : List.takeWhile isDigitC (c :: rest) = [] := by
    rw [List.takeWhile_cons, if_neg (show ¬(isDigitC c = true) from by simp [h])]
  rw [h1]
  rw [if_pos (show ([] : List Char).isEmpty = true from rfl)]

theorem tryNumDot_paren {d eX : List Char}
    (hd : ∀ c ∈ d, isDigitC c = true) (hdne : d ≠ []) :
    tryNumDot (d ++ ')' :: ' ' :: eX) = none := by
  unfold tryNumDot
  have h1 : List.takeWhile isDigitC (d ++ ')' :: ' ' :: eX) = d := by
    rw [takeWhile_append_all hd, List.takeWhile_cons,
      if_neg (show ¬(isDigitC ')' = true) from by decide), List.append_nil]
  have h2 : List.dropWhile isDigitC (d ++ ')' :: ' ' :: eX) = ')' :: ' ' :: eX := by
    rw [dropWhile_append_all hd, List.dropWhile_cons,
      if_neg (show ¬(isDigitC ')' = true) from by decide)]
  rw [h1, h2]
  rw [if_neg (show ¬(d.isEmpty = true) from by simp [List.isEmpty_iff, hdne])]
  dsimp only
  rw [if_neg (show ¬((')' : Char) = '.') from by decide)]

theorem tryGap_two {eX : List Char}
    (h : eX.takeWhile (fun c => c == '\n') = []) :
    tryGap ('\n' :: '\n' :: eX) = some (eX, true) := by
  unfold tryGap
  have h1 : List.takeWhile (fun c => c == '\n') ('\n' :: '\n' :: eX) =
      '\n' :: '\n' :: ([] : List Char) := by
    rw [List.takeWhile_cons, if_pos (show (('\n' : Char) == '\n') = true from by decide),
      List.takeWhile_cons, if_pos (show (('\n' : Char) == '\n') = true from by decide), h]
  have h2 : List.dropWhile (fun c => c == '\n') ('\n' :: '\n' :: eX) = eX := by
    rw [List.dropWhile_cons, if_pos (show (('\n' : Char) == '\n') = true from by decide),
      List.dropWhile_cons, if_pos (show (('\n' : Char) == '\n') = true from by decide)]
    exact dropWhile_of_takeWhile_nil h
  rw [h1, h2]
  rw [if_pos (show 2 ≤ (['\n', '\n'] : List Char).length from by simp)]

theorem tryGap_short {c : Char} {rest : List Char}
    (h : rest.takeWhile (fun c => c == '\n') = []) :
    tryGap (c :: rest) = none := by
  unfold tryGap
  by_cases hc : c = '\n'
  · subst hc
    have h1 : List.takeWhile (fun c => c == '\n') ('\n' :: rest) = ['\n'] := by
      rw [List.takeWhile_cons, if_pos (show (('\n' : Char) == '\n') = true from by decide), h]
    rw [h1]
    rw [if_neg (show ¬(2 ≤ (['\n'] : List Char).length) from by simp)]
  · have h1 : List.takeWhile (fun c => c == '\n') (c :: rest) = [] := by
      rw [List.takeWhile_cons, if_neg (show ¬((c == '\n') = true) from by simp [hc])]
    rw [h1]
    rw [if_neg (show ¬(2 ≤ ([] : List Char).length) from by simp)]

theorem tryGap_none {c : Char} {rest : List Char} (hc : c ≠ '\n') :
    tryGap (c :: rest) = none := by
  unfold tryGap
  have h1 : List.takeWhile (fun c => c == '\n') (c :: rest) = [] := by
    rw [List.takeWhile_cons, if_neg (show ¬((c == '\n') = true) from by simp [hc])]
  rw [h1]
  rw [if_neg (show ¬(2 ≤ ([] : List Char).length) from by simp)]

/-! ### C6: `matchDelim` on constructed texts -/

theorem digit_ne_of {c d : Char} (h : isDigitC c = true) (hd : isDigitC d = false) :
    c ≠ d := by
  intro he
  subst he
  rw [h] at hd
  simp at hd

theorem matchDelim_bracket {d eX : List Char}
    (hd : ∀ c ∈ d, isDigitC c = true) (hdne : d ≠ [])
    (he : ∃ c t, eX = c :: t ∧ isWS c = false) :
    matchDelim true ('[' :: (d ++ ']' :: ' ' :: eX)) = some (eX, false) := by
  unfold matchDelim
  rw [if_pos rfl, tryBracket_match hd hdne he]

theorem matchDelim_numdot {d eX : List Char}
    (hd : ∀ c ∈ d, isDigitC c = true) (hdne : d ≠ [])
    (he : ∃ c t, eX = c :: t ∧ isWS c = false) :
    matchDelim true (d ++ '.' :: ' ' :: eX) = some (eX, false) := by
  obtain ⟨c0, t0, hd0⟩ : ∃ c0 t0, d = c0 :: t0 := by
    cases d with
    | nil => exact absurd rfl hdne
    | cons c0 t0 => exact ⟨c0, t0, rfl⟩
  unfold matchDelim
  rw [if_pos rfl]
  rw [show d ++ '.' :: ' ' :: eX = c0 :: (t0 ++ '.' :: ' ' :: eX) from by rw [hd0]; rfl]
  rw [tryBracket_none (digit_ne_of (hd c0 (by rw [hd0]; simp)) (by decide))]
  rw [show c0 :: (t0 ++ '.' :: ' ' :: eX) = d ++ '.' :: ' ' :: eX from by rw [hd0]; rfl]
  rw [tryNumDot_match hd hdne he]

theorem matchDelim_numparen {d eX : List Char}
    (hd : ∀ c ∈ d, isDigitC c = true) (hdne : d ≠ [])
    (he : ∃ c t, eX = c :: t ∧ isWS c = false) :
    matchDelim true (d ++ ')' :: ' ' :: eX) = some (eX, false) := by
  obtain ⟨c0, t0, hd0⟩ : ∃ c0 t0, d = c0 :: t0 := by
    cases d with
    | nil => exact absurd rfl hdne
    | cons c0 t0 => exact ⟨c0, t0, rfl⟩
  unfold matchDelim
  rw [if_pos rfl]
  rw [show d ++ ')' :: ' ' :: eX = c0 :: (t0 ++ ')' :: ' ' :: eX) from by rw [hd0]; rfl]
  rw [tryBracket_none (digit_ne_of (hd c0 (by rw [hd0]; simp)) (by decide))]
  rw [show c0 :: (t0 ++ ')' :: ' ' :: eX) = d ++ ')' :: ' ' :: eX from by rw [hd0]; rfl]
  rw [tryNumDot_paren hd hdne]
  rw [tryNumParen_match hd hdne he]

theorem matchDelim_gap (atStart : Bool) {eX : List Char}
    (h : eX.takeWhile (fun c => c == '\n') = []) :
    matchDelim atStart ('\n' :: '\n' :: eX) = some (eX, true) := by
  unfold matchDelim
  cases atStart with
  | false =>
    rw [if_neg (by simp)]
    exact tryGap_two h
  | true =>
    rw [if_pos rfl]
    rw [tryBracket_none (by decide)]
    rw [tryNumDot_nondigit (by decide)]
    rw [tryNumParen_nondigit (by decide)]
    exact tryGap_two h

theorem matchDelim_inert (atStart : Bool) {c : Char} {rest : List Char}
    (h1 : c ≠ '[') (h2 : isDigitC c = false) (h3 : c ≠ '\n') :
    matchDelim atStart (c :: rest) = none := by
  unfold matchDelim
  cases atStart with
  | false =>
    rw [if_neg (by simp)]
    exact tryGap_none h3
  | true =>
    rw [if_pos rfl]
    rw [tryBracket_none h1]
    rw [tryNumDot_nondigit h2]
    rw [tryNumParen_nondigit h2]
    exact tryGap_none h3

theorem matchDelim_nl_single (atStart : Bool) {rest : List Char}
    (h : rest.takeWhile (fun c => c == '\n') = []) :
    matchDelim atStart ('\n' :: rest) = none := by
  unfold matchDelim
  cases atStart with
  | false =>
    rw [if_neg (by simp)]
    exact tryGap_short h
  | true =>
    rw [if_pos rfl]
    rw [tryBracket_none (by decide)]
    rw [tryNumDot_nondigit (by decide)]
    rw [tryNumParen_nondigit (by decide)]
    exact tryGap_short h

/-! ### C6: `splitLoop` equations and traversal -/

theorem splitLoop_nil (atStart : Bool) (buf : List Char) :
    splitLoop atStart buf [] = [buf.reverse] := by
  unfold splitLoop
  rfl

theorem splitLoop_delim {atStart : Bool} {buf : List Char} {c : Char}
    {rest rest' : List Char} {ns : Bool}
    (h : matchDelim atStart (c :: rest) = some (rest', ns)) :
    splitLoop atStart buf (c :: rest) = buf.reverse :: splitLoop ns [] rest' := by
  conv_lhs => unfold splitLoop
  split
  · rename_i rest2 ns2 heq
    rw [h] at heq
    rw [Option.some_inj, Prod.mk.injEq] at heq
    rw [heq.1, heq.2]
  · rename_i heq
    rw [h] at heq
    simp at heq

theorem splitLoop_nodelim {atStart : Bool} {buf : List Char} {c : Char}
    {rest : List Char} (h : matchDelim atStart (c :: rest) = none) :
    splitLoop atStart buf (c :: rest) = splitLoop (c == '\n') (c :: buf) rest := by
  conv_lhs => unfold splitLoop
  split
  · rename_i rest2 ns2 heq
    rw [h] at heq
    simp at heq
  · rfl

theorem splitLoop_inert_run :
    ∀ (l : List Char) (atStart : Bool) (buf rest : List Char),
      (∀ c ∈ l, isLowerOrSpace c = true) →
      splitLoop atStart buf (l ++ rest) =
        splitLoop (if l.isEmpty then atStart else false) (l.reverse ++ buf) rest := by
  intro l
  induction l with
  | nil =>
    intro atStart buf rest _
    simp
  | cons c ct ih =>
    intro atStart buf rest h
    have hc := h c (by simp)
    obtain ⟨h1, h2, h3⟩ := lowerOrSpace_inert hc
    rw [List.cons_append, splitLoop_nodelim (matchDelim_inert atStart h1 h2 h3)]
    rw [show (c == '\n') = false from by simp [h3]]
    rw [ih false (c :: buf) rest (fun x hx => h x (by simp [hx]))]
    have hif : (if ct.isEmpty then false else false) = false := by
      split <;> rfl
    rw [hif]
    rw [show ((c :: ct).isEmpty) = false from rfl]
    simp [List.append_assoc]

theorem splitLoop_nl (atStart : Bool) (buf : List Char) {rest : List Char}
    (h : rest.takeWhile (fun c => c == '\n') = []) :
    splitLoop atStart buf ('\n' :: rest) = splitLoop true ('\n' :: buf) rest := by
  rw [splitLoop_nodelim (matchDelim_nl_single atStart h)]
  rw [show (('\n' : Char) == '\n') = true from by decide]

/-! ### C6: joining, stripping and filtering the constructed pieces -/

theorem joinNl_cons (x : List Char) (xs : List (List Char)) :
    joinNl (x :: xs) = x ++ (if xs.isEmpty then [] else '\n' :: joinNl xs) := by
  cases xs with
  | nil => simp [joinNl]
  | cons y ys => rfl

theorem joinGap_cons (x : List Char) (xs : List (List Char)) :
    joinGap (x :: xs) = x ++ (if xs.isEmpty then [] else '\n' :: '\n' :: joinGap xs) := by
  cases xs with
  | nil => simp [joinGap]
  | cons y ys => rfl

theorem isEmpty_map (f : α → β) (l : List α) : (l.map f).isEmpty = l.isEmpty := by
  cases l <;> rfl

theorem lstrip_eq_self {l : List Char}
    (h : ∀ c, l.head? = some c → isWS c = false) : lstrip l = l := by
  cases l with
  | nil => rfl
  | cons c t =>
    unfold lstrip
    rw [List.dropWhile_cons, if_neg (show ¬(isWS c = true) from by simp [h c rfl])]

theorem rstrip_plain {e : List Char} (he : plainEntry e = true) : rstrip e = e := by
  apply rstrip_eq_self
  intro c hc
  obtain ⟨c', hc', hl⟩ := plainEntry_getLast he
  rw [hc] at hc'
  rw [Option.some_inj] at hc'
  rw [hc']
  exact lower_not_ws hl

theorem lstrip_plain {e : List Char} (he : plainEntry e = true) : lstrip e = e := by
  apply lstrip_eq_self
  intro c hc
  obtain ⟨c0, t0, he0, hlow⟩ := plainEntry_head he
  rw [he0, List.head?_cons, Option.some_inj] at hc
  rw [← hc]
  exact lower_not_ws hlow

theorem strip_plain {e : List Char} (he : plainEntry e = true) : strip e = e := by
  show lstrip (rstrip e) = e
  rw [rstrip_plain he, lstrip_plain he]

theorem strip_entry_nl {e : List Char} (he : plainEntry e = true) :
    strip (e ++ ['\n']) = e := by
  have hr : rstrip (e ++ ['\n']) = e := by
    unfold rstrip
    rw [List.reverse_append]
    simp only [List.reverse_cons, List.reverse_nil, List.nil_append, List.singleton_append]
    rw [List.dropWhile_cons, if_pos (show isWS '\n' = true from by decide)]
    obtain ⟨c, hc, hl⟩ := plainEntry_getLast he
    have hrev : e.reverse.head? = some c := by
      rw [List.head?_reverse]
      exact hc
    cases hre : e.reverse with
    | nil =>
      rw [hre] at hrev
      simp at hrev
    | cons c' t' =>
      rw [hre] at hrev
      rw [List.head?_cons, Option.some_inj] at hrev
      rw [List.dropWhile_cons,
        if_neg (show ¬(isWS c' = true) from by rw [hrev]; simp [lower_not_ws hl])]
      rw [← hre, List.reverse_reverse]
  show lstrip (rstrip (e ++ ['\n'])) = e
  rw [hr, lstrip_plain he]

theorem plain_keep {e : List Char} (he : plainEntry e = true) :
    (!(e.isEmpty || isBareDelim e)) = true := by
  obtain ⟨c0, t0, he0, hlow⟩ := plainEntry_head he
  have h1 : e.isEmpty = false := by simp [List.isEmpty_iff, plainEntry_ne_nil he]
  have htw : List.takeWhile isDigitC e = [] := by
    rw [he0, List.takeWhile_cons,
      if_neg (show ¬(isDigitC c0 = true) from by simp [lower_not_digit hlow])]
  have h2 : bareBracket e = false := by
    unfold bareBracket
    rw [he0]
    dsimp only
    have hne : (decide (c0 = '[')) = false := by
      simp [lower_ne_char hlow (show isLowerC '[' = false from by decide)]
    rw [hne]
    simp
  have h3 : bareNumDot e = false := by
    unfold bareNumDot
    rw [htw]
    simp
  have h4 : bareNumParen e = false := by
    unfold bareNumParen
    rw [htw]
    simp
  unfold isBareDelim
  rw [h1, h2, h3, h4]
  rfl

theorem mapfilter_piecesOf :
    ∀ (ps : List (List Char × List Char)) (e : List Char),
      plainEntry e = true → (∀ p ∈ ps, plainEntry p.2 = true) →
      ((piecesOf e ps).map strip).filter (fun p => !(p.isEmpty || isBareDelim p)) =
        e :: ps.map (·.2) := by
  intro ps
  induction ps with
  | nil =>
    intro e he _
    show ((List.map strip [e]).filter _) = [e]
    rw [List.map_cons, List.map_nil, strip_plain he]
    rw [List.filter_cons, if_pos (plain_keep he)]
    rfl
  | cons p ps' ih =>
    intro e he hps
    rw [show piecesOf e (p :: ps') = (e ++ ['\n']) :: piecesOf p.2 ps' from rfl]
    rw [List.map_cons, strip_entry_nl he]
    rw [List.filter_cons, if_pos (plain_keep he)]
    rw [ih p.2 (hps p (by simp)) (fun q hq => hps q (by simp [hq]))]
    rfl

theorem mapfilter_entries :
    ∀ (es : List (List Char)), (∀ e ∈ es, plainEntry e = true) →
      ((es.map strip).filter (fun p => !(p.isEmpty || isBareDelim p))) = es := by
  intro es
  induction es with
  | nil => intro _; rfl
  | cons e es' ih =>
    intro h
    rw [List.map_cons, strip_plain (h e (by simp))]
    rw [List.filter_cons, if_pos (plain_keep (h e (by simp)))]
    rw [ih (fun x hx => h x (by simp [hx]))]

/-! ### C6: the author–year pre-pass is the identity on these texts -/

theorem ayLine_cons_false {c : Char} {rest : List Char} (h : isUpperC c = false) :
    ayLine (c :: rest) = false := by
  unfold ayLine
  dsimp only
  rw [h]
  simp

theorem aySubGo_id :
    ∀ (cs : List Char) (b : Bool), (∀ c ∈ cs, isUpperC c = false) →
      aySubGo b cs = cs := by
  intro cs
  induction cs with
  | nil => intro b _; rfl
  | cons c ct ih =>
    intro b h
    have heq : aySubGo b (c :: ct) =
        (if b && ayLine ((c :: ct).takeWhile (fun x => x != '\n')) then ['\n'] else []) ++
          c :: aySubGo (c == '\n') ct := rfl
    rw [heq]
    have hcond : ayLine ((c :: ct).takeWhile (fun x => x != '\n')) = false := by
      rw [List.takeWhile_cons]
      by_cases hc : c = '\n'
      · rw [if_neg (show ¬((c != '\n') = true) from by simp [hc])]
        rfl
      · rw [if_pos (show (c != '\n') = true from by simp [hc])]
        exact ayLine_cons_false (h c (by simp))
    rw [hcond, Bool.and_false]
    rw [if_neg (show ¬(false = true) from by simp)]
    rw [List.nil_append]
    rw [ih (c == '\n') (fun x hx => h x (by simp [hx]))]

theorem author_year_sub_id {cs : List Char} (h : ∀ c ∈ cs, isUpperC c = false) :
    author_year_sub cs = cs :=
  aySubGo_id cs true h

theorem mem_joinGap :
    ∀ {es : List (List Char)} {c : Char}, c ∈ joinGap es →
      c = '\n' ∨ ∃ l ∈ es, c ∈ l := by
  intro es
  induction es with
  | nil => intro c hc; simp [joinGap] at hc
  | cons e es' ih =>
    intro c hc
    cases es' with
    | nil =>
      right
      exact ⟨e, by simp, by simpa [joinGap] using hc⟩
    | cons e2 es2 =>
      rw [show joinGap (e :: e2 :: es2) = e ++ '\n' :: '\n' :: joinGap (e2 :: es2) from rfl] at hc
      rw [List.mem_append, List.mem_cons] at hc
      rcases hc with hc | hc | hc
      · exact Or.inr ⟨e, by simp, hc⟩
      · exact Or.inl hc
      · rw [List.mem_cons] at hc
        rcases hc with hc | hc
        · exact Or.inl hc
        · rcases ih hc with hc2 | ⟨l, hl, hcl⟩
          · exact Or.inl hc2
          · exact Or.inr ⟨l, by simp [hl], hcl⟩

theorem mem_item_not_upper {p : List Char × List Char} {mk : Char}
    (hp : numeralOk p.1 = true) (hp2 : plainEntry p.2 = true)
    (hmk : isUpperC mk = false) :
    ∀ c ∈ p.1 ++ mk :: ' ' :: p.2, isUpperC c = false := by
  intro c hc
  rw [List.mem_append, List.mem_cons] at hc
  rcases hc with hc | hc | hc
  · exact digit_not_upper (numeralOk_chars hp c hc)
  · rw [hc]
    exact hmk
  · rw [List.mem_cons] at hc
    rcases hc with hc | hc
    · rw [hc]
      decide
    · exact lowerOrSpace_not_upper (plainEntry_chars hp2 c hc)

/-! ### C6: running the splitter over a consistently delimited list -/

theorem splitLoop_inert_run_ne {l : List Char} (hne : l ≠ []) (atStart : Bool)
    (buf rest : List Char) (h : ∀ c ∈ l, isLowerOrSpace c = true) :
    splitLoop atStart buf (l ++ rest) = splitLoop false (l.reverse ++ buf) rest := by
  rw [splitLoop_inert_run l atStart buf rest h,
    if_neg (show ¬(l.isEmpty = true) from by simp [List.isEmpty_iff, hne])]

theorem splitLoop_run_conv (itemOf : List Char × List Char → List Char) :
    ∀ (ps : List (List Char × List Char)) (e : List Char) (atStart : Bool),
      plainEntry e = true →
      (∀ p ∈ ps, plainEntry p.2 = true) →
      (∀ p ∈ ps, ∀ X : List Char, ∃ c rest, itemOf p ++ X = c :: rest ∧
        (c == '\n') = false ∧ matchDelim true (c :: rest) = some (p.2 ++ X, false)) →
      splitLoop atStart []
          (e ++ (if ps.isEmpty then [] else '\n' :: joinNl (ps.map itemOf))) =
        piecesOf e ps := by
  intro ps
  induction ps with
  | nil =>
    intro e atStart he _ _
    rw [if_pos (show (List.isEmpty ([] : List (List Char × List Char))) = true from rfl)]
    rw [splitLoop_inert_run_ne (plainEntry_ne_nil he) atStart [] [] (plainEntry_chars he)]
    rw [splitLoop_nil]
    show _ = [e]
    simp
  | cons p ps' ih =>
    intro e atStart he hpl hmd
    rw [if_neg (show ¬(List.isEmpty (p :: ps') = true) from by simp)]
    rw [List.map_cons, joinNl_cons, isEmpty_map]
    rw [splitLoop_inert_run_ne (plainEntry_ne_nil he) atStart [] _ (plainEntry_chars he)]
    obtain ⟨c, rest, hshape, hcnl, hdelim⟩ :=
      hmd p (by simp) (if ps'.isEmpty then [] else '\n' :: joinNl (ps'.map itemOf))
    have htw : (itemOf p ++ (if ps'.isEmpty then [] else '\n' :: joinNl (ps'.map itemOf))).takeWhile
        (fun x => x == '\n') = [] := by
      rw [hshape, List.takeWhile_cons, if_neg (show ¬((c == '\n') = true) from by simp [hcnl])]
    rw [splitLoop_nl false _ htw]
    rw [hshape, splitLoop_delim hdelim]
    rw [ih p.2 false (hpl p (by simp)) (fun q hq => hpl q (by simp [hq]))
      (fun q hq X => hmd q (by simp [hq]) X)]
    rw [show piecesOf e (p :: ps') = (e ++ ['\n']) :: piecesOf p.2 ps' from rfl]
    congr 1
    simp

theorem splitLoop_run_gap :
    ∀ (es : List (List Char)) (e : List Char) (atStart : Bool),
      plainEntry e = true → (∀ x ∈ es, plainEntry x = true) →
      splitLoop atStart []
          (e ++ (if es.isEmpty then [] else '\n' :: '\n' :: joinGap es)) = e :: es := by
  intro es
  induction es with
  | nil =>
    intro e atStart he _
    rw [if_pos (show (List.isEmpty ([] : List (List Char))) = true from rfl)]
    rw [splitLoop_inert_run_ne (plainEntry_ne_nil he) atStart [] [] (plainEntry_chars he)]
    rw [splitLoop_nil]
    simp
  | cons e2 es' ih =>
    intro e atStart he hes
    rw [if_neg (show ¬(List.isEmpty (e2 :: es') = true) from by simp)]
    rw [joinGap_cons]
    rw [splitLoop_inert_run_ne (plainEntry_ne_nil he) atStart [] _ (plainEntry_chars he)]
    obtain ⟨c0, t0, he0, hlow⟩ := plainEntry_head (hes e2 (by simp))
    have htw : (e2 ++ (if es'.isEmpty then [] else '\n' :: '\n' :: joinGap es')).takeWhile
        (fun x => x == '\n') = [] := by
      rw [he0, List.cons_append, List.takeWhile_cons,
        if_neg (show ¬((c0 == '\n') = true) from by
          simp [lower_ne_char hlow (show isLowerC '\n' = false from by decide)])]
    rw [splitLoop_delim (matchDelim_gap false htw)]
    rw [ih e2 true (hes e2 (by simp)) (fun x hx => hes x (by simp [hx]))]
    congr 1
    simp

/-! ### C6: per-convention delimiter facts -/

theorem convFact_bracket {ps : List (List Char × List Char)}
    (hps : ∀ p ∈ ps, numeralOk p.1 = true ∧ plainEntry p.2 = true) :
    ∀ p ∈ ps, ∀ X : List Char, ∃ c rest, itemBracket p ++ X = c :: rest ∧
      (c == '\n') = false ∧ matchDelim true (c :: rest) = some (p.2 ++ X, false) := by
  intro p hp X
  obtain ⟨hnum, hpl⟩ := hps p hp
  obtain ⟨c0, t0, he0, hlow⟩ := plainEntry_head hpl
  refine ⟨'[', p.1 ++ ']' :: ' ' :: (p.2 ++ X), by simp [itemBracket], by decide, ?_⟩
  exact matchDelim_bracket (numeralOk_chars hnum) (numeralOk_ne_nil hnum)
    ⟨c0, t0 ++ X, by rw [he0]; rfl, lower_not_ws hlow⟩

theorem convFact_numdot {ps : List (List Char × List Char)}
    (hps : ∀ p ∈ ps, numeralOk p.1 = true ∧ plainEntry p.2 = true) :
    ∀ p ∈ ps, ∀ X : List Char, ∃ c rest, itemNumDot p ++ X = c :: rest ∧
      (c == '\n') = false ∧ matchDelim true (c :: rest) = some (p.2 ++ X, false) := by
  intro p hp X
  obtain ⟨hnum, hpl⟩ := hps p hp
  obtain ⟨c0, t0, he0, hlow⟩ := plainEntry_head hpl
  obtain ⟨d0, dt, hd0⟩ : ∃ d0 dt, p.1 = d0 :: dt := by
    cases hd : p.1 with
    | nil => exact absurd hd (numeralOk_ne_nil hnum)
    | cons d0 dt => exact ⟨d0, dt, rfl⟩
  have hd0dig : isDigitC d0 = true := numeralOk_chars hnum d0 (by rw [hd0]; simp)
  have hmd := matchDelim_numdot (numeralOk_chars hnum) (numeralOk_ne_nil hnum)
    (⟨c0, t0 ++ X, by rw [he0]; rfl, lower_not_ws hlow⟩ :
      ∃ c t, p.2 ++ X = c :: t ∧ isWS c = false)
  refine ⟨d0, dt ++ '.' :: ' ' :: (p.2 ++ X), ?_, ?_, ?_⟩
  · rw [show itemNumDot p ++ X = p.1 ++ '.' :: ' ' :: (p.2 ++ X) from by simp [itemNumDot]]
    rw [hd0]
    rfl
  · simp [digit_ne_of hd0dig (show isDigitC '\n' = false from by decide)]
  · rw [show d0 :: (dt ++ '.' :: ' ' :: (p.2 ++ X)) = p.1 ++ '.' :: ' ' :: (p.2 ++ X) from by
      rw [hd0]; rfl]
    exact hmd

theorem convFact_numparen {ps : List (List Char × List Char)}
    (hps : ∀ p ∈ ps, numeralOk p.1 = true ∧ plainEntry p.2 = true) :
    ∀ p ∈ ps, ∀ X : List Char, ∃ c rest, itemNumParen p ++ X = c :: rest ∧
      (c == '\n') = false ∧ matchDelim true (c :: rest) = some (p.2 ++ X, false) := by
  intro p hp X
  obtain ⟨hnum, hpl⟩ := hps p hp
  obtain ⟨c0, t0, he0, hlow⟩ := plainEntry_head hpl
  obtain ⟨d0, dt, hd0⟩ : ∃ d0 dt, p.1 = d0 :: dt := by
    cases hd : p.1 with
    | nil => exact absurd hd (numeralOk_ne_nil hnum)
    | cons d0 dt => exact ⟨d0, dt, rfl⟩
  have hd0dig : isDigitC d0 = true := numeralOk_chars hnum d0 (by rw [hd0]; simp)
  have hmd := matchDelim_numparen (numeralOk_chars hnum) (numeralOk_ne_nil hnum)
    (⟨c0, t0 ++ X, by rw [he0]; rfl, lower_not_ws hlow⟩ :
      ∃ c t, p.2 ++ X = c :: t ∧ isWS c = false)
  refine ⟨d0, dt ++ ')' :: ' ' :: (p.2 ++ X), ?_, ?_, ?_⟩
  · rw [show itemNumParen p ++ X = p.1 ++ ')' :: ' ' :: (p.2 ++ X) from by
      simp [itemNumParen]]
    rw [hd0]
    rfl
  · simp [digit_ne_of hd0dig (show isDigitC '\n' = false from by decide)]
  · rw [show d0 :: (dt ++ ')' :: ' ' :: (p.2 ++ X)) = p.1 ++ ')' :: ' ' :: (p.2 ++ X) from by
      rw [hd0]; rfl]
    exact hmd

theorem split_references_of_conv (itemOf : List Char × List Char → List Char)
    (ps : List (List Char × List Char))
    (hps : ∀ p ∈ ps, numeralOk p.1 = true ∧ plainEntry p.2 = true)
    (hup : ∀ c ∈ joinNl (ps.map itemOf), isUpperC c = false)
    (hmd : ∀ p ∈ ps, ∀ X : List Char, ∃ c rest, itemOf p ++ X = c :: rest ∧
      (c == '\n') = false ∧ matchDelim true (c :: rest) = some (p.2 ++ X, false)) :
    split_references (joinNl (ps.map itemOf)) = ps.map (fun p => p.2) := by
  unfold split_references
  rw [author_year_sub_id hup]
  cases ps with
  | nil =>
    rw [show joinNl (List.map itemOf []) = [] from rfl]
    rw [splitLoop_nil]
    rfl
  | cons p ps' =>
    rw [List.map_cons, joinNl_cons, isEmpty_map]
    obtain ⟨c, rest, hshape, hcnl, hdelim⟩ :=
      hmd p (by simp) (if ps'.isEmpty then [] else '\n' :: joinNl (ps'.map itemOf))
    rw [hshape, splitLoop_delim hdelim]
    rw [splitLoop_run_conv itemOf ps' p.2 false (hps p (by simp)).2
      (fun q hq => (hps q (by simp [hq])).2) (fun q hq X => hmd q (by simp [hq]) X)]
    rw [show ([] : List Char).reverse = [] from rfl]
    rw [List.map_cons]
    rw [show strip ([] : List Char) = [] from rfl]
    rw [List.filter_cons]
    rw [if_neg (show ¬((!(List.isEmpty ([] : List Char) || isBareDelim [])) = true) from by
      decide)]
    rw [mapfilter_piecesOf ps' p.2 (hps p (by simp)).2
      (fun q hq => (hps q (by simp [hq])).2)]
    rfl

theorem itemBracket_not_upper {p : List Char × List Char}
    (hnum : numeralOk p.1 = true) (hpl : plainEntry p.2 = true) :
    ∀ c ∈ itemBracket p, isUpperC c = false := by
  intro c hc
  unfold itemBracket at hc
  cases hc with
  | head => decide
  | tail _ h2 => exact mem_item_not_upper hnum hpl (by decide) c h2

theorem itemNumDot_not_upper {p : List Char × List Char}
    (hnum : numeralOk p.1 = true) (hpl : plainEntry p.2 = true) :
    ∀ c ∈ itemNumDot p, isUpperC c = false := by
  intro c hc
  exact @mem_item_not_upper p '.' hnum hpl (by decide) c (by simpa [itemNumDot] using hc)

theorem itemNumParen_not_upper {p : List Char × List Char}
    (hnum : numeralOk p.1 = true) (hpl : plainEntry p.2 = true) :
    ∀ c ∈ itemNumParen p, isUpperC c = false := by
  intro c hc
  exact @mem_item_not_upper p ')' hnum hpl (by decide) c (by simpa [itemNumParen] using hc)

theorem joinNl_items_not_upper {itemOf : List Char × List Char → List Char}
    {ps : List (List Char × List Char)}
    (h : ∀ p ∈ ps, ∀ c ∈ itemOf p, isUpperC c = false) :
    ∀ c ∈ joinNl (ps.map itemOf), isUpperC c = false := by
  intro c hc
  rcases mem_joinNl hc with hc2 | ⟨l, hl, hcl⟩
  · rw [hc2]
    decide
  · rw [List.mem_map] at hl
    obtain ⟨p, hp, hpl⟩ := hl
    rw [← hpl] at hcl
    exact h p hp c hcl

theorem split_references_gap_conv (es : List (List Char))
    (hes : ∀ e ∈ es, plainEntry e = true) :
    split_references (joinGap es) = es := by
  unfold split_references
  have hup : ∀ c ∈ joinGap es, isUpperC c = false := by
    intro c hc
    rcases mem_joinGap hc with hc2 | ⟨l, hl, hcl⟩
    · rw [hc2]
      decide
    · exact lowerOrSpace_not_upper (plainEntry_chars (hes l hl) c hcl)
  rw [author_year_sub_id hup]
  cases es with
  | nil =>
    rw [show joinGap [] = [] from rfl, splitLoop_nil]
    rfl
  | cons e es' =>
    rw [joinGap_cons]
    rw [splitLoop_run_gap es' e true (hes e (by simp)) (fun x hx => hes x (by simp [hx]))]
    exact mapfilter_entries (e :: es') hes

/-- Claim C6: segmentation coverage.  For entries made of lowercase words
(non-empty, starting and ending with a letter — so each piece is its own
trim and no entry is a bare delimiter token) and non-empty digit-string
labels, a reference list built consistently in any one of the four
supported conventions — `[n] entry` lines, `n. entry` lines, `n) entry`
lines, or entries separated by blank lines — is segmented into exactly
its entries, in original order; the leading empty piece produced by a
line-start delimiter and every bare delimiter token are discarded. -/
theorem C6_segmentation (ps : List (List Char × List Char)) (es : List (List Char))
    (hps : ∀ p ∈ ps, numeralOk p.1 = true ∧ plainEntry p.2 = true)
    (hes : ∀ e ∈ es, plainEntry e = true) :
    split_references (joinNl (ps.map itemBracket)) = ps.map (fun p => p.2) ∧
    split_references (joinNl (ps.map itemNumDot)) = ps.map (fun p => p.2) ∧
    split_references (joinNl (ps.map itemNumParen)) = ps.map (fun p => p.2) ∧
    split_references (joinGap es) = es := by
  refine ⟨?_, ?_, ?_, split_references_gap_conv es hes⟩
  · exact split_references_of_conv itemBracket ps hps
      (joinNl_items_not_upper (fun p hp =>
        itemBracket_not_upper (hps p hp).1 (hps p hp).2))
      (convFact_bracket hps)
  · exact split_references_of_conv itemNumDot ps hps
      (joinNl_items_not_upper (fun p hp =>
        itemNumDot_not_upper (hps p hp).1 (hps p hp).2))
      (convFact_numdot hps)
  · exact split_references_of_conv itemNumParen ps hps
      (joinNl_items_not_upper (fun p hp =>
        itemNumParen_not_upper (hps p hp).1 (hps p hp).2))
      (convFact_numparen hps)

/-- Witness for C6 at a concrete two-entry reference list. -/
theorem C6_witness :
    (∀ p ∈ ([(['1'], "abc".toList), (['2'], "de f".toList)] :
        List (List Char × List Char)),
      numeralOk p.1 = true ∧ plainEntry p.2 = true) ∧
    split_references
        (joinNl (([(['1'], "abc".toList), (['2'], "de f".toList)] :
          List (List Char × List Char)).map itemBracket)) =
      ([(['1'], "abc".toList), (['2'], "de f".toList)] :
        List (List Char × List Char)).map (fun p => p.2) :=
  ⟨by decide,
    (C6_segmentation [(['1'], "abc".toList), (['2'], "de f".toList)]
      ["aa".toList] (by decide) (by decide)).1⟩

end FabRef
